import Mathlib

/-!
# Verification of the vibro-diagnosys test-procedure engines

A shallow embedding of the core of the `vibro-diagnosys` repository:
the three stimulus-presentation engines (`core/mols_test.py`,
`core/spatial_test.py`, `core/pmpwm_test.py`), the two outcome analysers
(`core/spatial_analysis.py`, `core/pmpwm_analysis.py`) and the PM-PWM
per-motor bookkeeping of `gui/main_window.py`.

Modelling conventions:
* Randomness (`random.shuffle`, `random.sample`, `random.randint`) is
  modelled by passing the drawn value as an explicit parameter, with the
  distribution's support expressed as a hypothesis where a claim needs it.
* The blocking wait on the patient / the cooperative cancellation flag is
  modelled by an observation stream: at each check point the engine reads
  the next observation (the value of `self._stop`, resp. the outcome of the
  blocking wait).
* Hardware calls (`set_pwm_values`, `reset_pwm_values`,
  `begin_end_indicator`) are recorded in an action trace; the motor state
  after a trace is computed by replaying it.  `begin_end_indicator` ends
  with `reset_pwm_values`, so it leaves all motors at zero.
* Python `dict`s keyed by motor/region are association lists updated at the
  first matching key (keys are unique in every run, as in CPython dicts).
* Machine floats produced by `np.mean` / `round` are modelled by exact
  rationals with round-half-to-even, Python's rounding mode.
-/

namespace Vibro

/-- Python `range(a, b, s)` for a positive step `s` (empty for `s = 0`,
where Python would raise). -/
def pyRange (a b s : Nat) : List Nat :=
  if s = 0 then [] else (List.range ((b - a + s - 1) / s)).map (fun i => a + s * i)

/-- Number of elements of `np.arange(start, stop, step)`. -/
def arangeLen (start stop step : Int) : Nat :=
  if step = 0 then 0
  else if 0 < step then ((stop - start + step - 1) / step).toNat
  else ((start - stop + (-step) - 1) / (-step)).toNat

/-- `np.arange(start, stop, step)` over the integers. -/
def arange (start stop step : Int) : List Int :=
  (List.range (arangeLen start stop step)).map (fun i => start + step * i)

/-- Python's `round` (and NumPy's) on an exact rational: half to even. -/
def roundHalfEven (q : ℚ) : ℤ :=
  let f := ⌊q⌋
  if q - f < 1/2 then f
  else if 1/2 < q - f then f + 1
  else if f % 2 = 0 then f else f + 1

/-- `np.mean` of a list of integers, as an exact rational. -/
def listMean (l : List Int) : ℚ :=
  (l.sum : ℚ) / (l.length : ℚ)

/-- Python `lst * k`: the list repeated `k` times. -/
def listMul (l : List Int) (k : Nat) : List Int :=
  (List.replicate k l).flatten

/-- Python `lst.index(v)`: index of the first occurrence. -/
def pyIndex : List Int → Int → Nat
  | [], _ => 0
  | x :: xs, v => if x = v then 0 else pyIndex xs v + 1

/-- `d[k] = v` on a dict held as an association list: update the (unique)
matching key in place, else append. -/
def dictSet {α : Type} : List (Nat × α) → Nat → α → List (Nat × α)
  | [], k, v => [(k, v)]
  | (k0, v0) :: rest, k, v =>
    if k0 = k then (k0, v) :: rest else (k0, v0) :: dictSet rest k v

/-- `d.pop(k, None)` on a dict held as an association list. -/
def dictPop {α : Type} : List (Nat × α) → Nat → List (Nat × α)
  | [], _ => []
  | (k0, v0) :: rest, k =>
    if k0 = k then rest else (k0, v0) :: dictPop rest k

/-- `d.get(k)` on a dict held as an association list. -/
def dictGet? {α : Type} : List (Nat × α) → Nat → Option α
  | [], _ => none
  | (k0, v0) :: rest, k =>
    if k0 = k then some v0 else dictGet? rest k

/-! ## Hardware actions (`core/serial_api.py`) -/

/-- One call into `VibroBox`: `set_pwm_values(vals)`, `reset_pwm_values()`,
or `begin_end_indicator()`. -/
inductive Act where
  | set (vals : List Int)
  | reset
  | indicator
deriving DecidableEq, Repr

/-- The PWM array that is all zero except motor `motor` at `v`
(`pwm_arr = [0]*n; pwm_arr[motor] = v`; an out-of-range index is a no-op
here, matching the explicit bound check in the spatial engine). -/
def singleOn (n motor : Nat) (v : Int) : List Int :=
  (List.replicate n (0 : Int)).set motor v

/-- Motor state after one hardware call.  `begin_end_indicator` finishes
with `reset_pwm_values`, leaving every motor at zero. -/
def applyAct (n : Nat) (_st : List Int) : Act → List Int
  | .set vals => vals
  | .reset => List.replicate n 0
  | .indicator => List.replicate n 0

/-- Motor state after replaying a trace. -/
def runTrace (n : Nat) (tr : List Act) (st : List Int) : List Int :=
  tr.foldl (applyAct n) st

/-! ## MOLs threshold test (`core/mols_test.py`) -/

/-- Outcome of one `wait_for_patient` call: the loop exits with `_stop`
set (cancellation wins even if an answer also arrived), or with the
patient's nonempty answer string. -/
inductive WaitOutcome where
  | cancelled
  | answer (a : String)
deriving DecidableEq, Repr

/-- Observations consumed by one iteration of `MolsWorker._probe`:
the `_stop` flag read at the head of the loop, then the wait outcome. -/
structure StepObs where
  stopBefore : Bool
  wait : WaitOutcome
deriving DecidableEq, Repr

/-- Hyperparameters used by the MOLs test (`core/config.py`). -/
structure MolsHyps where
  nMotors : Nat
  numMotorStart : Nat
  numMotorEnd : Nat
  useMotorsStep : Nat
  expsForEachMotor : Nat
  endPwmDown : Int
  endPwmUp : Int
  deltaPwmDown : Int
  deltaPwmUp : Int
deriving DecidableEq, Repr

/-- `MolsWorker._probe(seq, motor_idx, positive_answer)`: walk `seq`,
present each intensity on `motorIdx` alone, wait for the patient, stop at
the first answer equal to `positive`.  Returns the hardware trace and
`none` for the `-1` "cancelled" code, or `some` returned threshold:
`int(v + abs(delta_pwm_down if positive == 'n' else 0))` at the stopping
intensity `v`, and on exhaustion `abs(delta_pwm_down)` for a descending
pass (`positive = "n"`) or `end_pwm_up` for an ascending one. -/
def probe (h : MolsHyps) (motorIdx : Nat) (positive : String)
    (env : Nat → StepObs) : List Int → Nat → List Act × Option Int
  | [], _ => ([], some (if positive = "n" then |h.deltaPwmDown| else h.endPwmUp))
  | v :: vs, k =>
    let ob := env k
    if ob.stopBefore then ([Act.reset], none)
    else
      match ob.wait with
      | .cancelled =>
        ([Act.set (singleOn h.nMotors motorIdx v), Act.reset, Act.reset], none)
      | .answer a =>
        if a = positive then
          ([Act.set (singleOn h.nMotors motorIdx v), Act.reset],
            some (v + (if positive = "n" then |h.deltaPwmDown| else 0)))
        else
          let rest := probe h motorIdx positive env vs (k + 1)
          (Act.set (singleOn h.nMotors motorIdx v) :: Act.reset :: rest.1, rest.2)

/-- The descending-pass sequence of `MolsWorker._downstream`:
`np.arange(start_pwm, 20, delta_pwm_down)` then `np.arange(20, end_pwm_down, -2)`;
`start_pwm = random.randint(3, 4) * 10` is passed in explicitly. -/
def downSeq (h : MolsHyps) (startPwm : Int) : List Int :=
  arange startPwm 20 h.deltaPwmDown ++ arange 20 h.endPwmDown (-2)

/-- The ascending-pass sequence of `MolsWorker._upstream`:
`np.arange(start_pwm, end_pwm_up, delta_pwm_up)`;
`start_pwm = random.randint(2, 8)` is passed in explicitly. -/
def upSeq (h : MolsHyps) (startPwm : Int) : List Int :=
  arange startPwm h.endPwmUp h.deltaPwmUp

/-- `MolsWorker._downstream`: a descending pass is `_probe` on `downSeq`
with positive answer `"n"`. -/
def downstream (h : MolsHyps) (motorIdx : Nat) (startPwm : Int)
    (env : Nat → StepObs) : List Act × Option Int :=
  probe h motorIdx "n" env (downSeq h startPwm) 0

/-- `MolsWorker._upstream`: an ascending pass is `_probe` on `upSeq`
with positive answer `"y"`. -/
def upstream (h : MolsHyps) (motorIdx : Nat) (startPwm : Int)
    (env : Nat → StepObs) : List Act × Option Int :=
  probe h motorIdx "y" env (upSeq h startPwm) 0

/-- An environment in which the patient always answers (no cancellation):
iteration `i` reads `_stop = False` and receives answer `ans i`. -/
def respEnv (ans : Nat → String) : Nat → StepObs :=
  fun i => ⟨false, WaitOutcome.answer (ans i)⟩

/-! ## MOLs run loop (`MolsWorker.run`) -/

/-- Terminal kind of a run, mirroring the worker's control flow: the loop
ran to completion, the run returned early on the cancellation flag, or
(spatial test only) the run returned before starting on an empty region
pool. -/
inductive ExitKind where
  | completed
  | cancelled
  | aborted
deriving DecidableEq, Repr

/-- Observations consumed by one pass of `MolsWorker.run`: the `_stop`
flag read at the head of the direction loop, the pass's random start
intensity, and the observation stream of its `_probe`. -/
structure MolsPassObs where
  stopAtHead : Bool
  startPwm : Int
  obs : Nat → StepObs

/-- `results.setdefault(m, []).append(v)`. -/
def addResult : List (Nat × List Int) → Nat → Int → List (Nat × List Int)
  | [], m, v => [(m, [v])]
  | (k, l) :: rest, m, v =>
    if k = m then (k, l ++ [v]) :: rest else (k, l) :: addResult rest m v

/-- The motors selected for the MOLs run:
`range(num_motor_start, num_motor_end + 1, use_motors_step)`. -/
def molsMotors (h : MolsHyps) : List Nat :=
  pyRange h.numMotorStart (h.numMotorEnd + 1) h.useMotorsStep

/-- The run's pass list: for each motor in order, its shuffled direction
list (`true` = direction 1, a descending pass); `dirs m` models the
shuffle of `[0,1] * exps_for_each_motor`. -/
def molsPassList (h : MolsHyps) (dirs : Nat → List Bool) : List (Nat × Bool) :=
  (molsMotors h).flatMap (fun m => (dirs m).map (fun d => (m, d)))

/-- The intensity sequence a pass walks: the descending `downSeq` for
direction 1, the ascending `upSeq` for direction 0. -/
def molsPassSeq (h : MolsHyps) (pe : MolsPassObs) (d : Bool) : List Int :=
  if d then downSeq h pe.startPwm else upSeq h pe.startPwm

/-- The stopping answer of a pass: "n" for a descending pass, "y" for an
ascending one. -/
def molsPassPositive (d : Bool) : String :=
  if d then "n" else "y"

/-- One pass of the run body: `_downstream` for direction 1, `_upstream`
for direction 0. -/
def molsPass (h : MolsHyps) (pe : MolsPassObs) (m : Nat) (d : Bool) :
    List Act × Option Int :=
  probe h m (molsPassPositive d) pe.obs (molsPassSeq h pe d) 0

/-- The total number of pass thresholds recorded so far. -/
def resultsSize (res : List (Nat × List Int)) : Nat :=
  (res.map (fun e => e.2.length)).sum

/-- Output of `MolsWorker.run`: hardware trace, the per-motor pass
results, the payload of the `finished` signal if it was emitted, and the
control-flow exit kind. -/
structure MolsRunOut where
  trace : List Act
  results : List (Nat × List Int)
  emitted : Option (List (Nat × Int))
  exit : ExitKind

/-- The direction loop of `MolsWorker.run` from pass number `p` on, with
accumulated per-motor results `res`.  A `_stop` observed at the loop head
or a `-1` from `_probe` returns without emitting `finished`; a completed
pass appends its threshold and fires `begin_end_indicator`; after the last
pass the per-motor means (`int(round(np.mean(v)))`) are emitted. -/
def molsRunAux (h : MolsHyps) (env : Nat → MolsPassObs) :
    List (Nat × Bool) → Nat → List (Nat × List Int) → MolsRunOut
  | [], _, res =>
    { trace := [], results := res,
      emitted := some (res.map (fun e => (e.1, roundHalfEven (listMean e.2)))),
      exit := .completed }
  | (m, d) :: rest, p, res =>
    let pe := env p
    if pe.stopAtHead then
      { trace := [], results := res, emitted := none, exit := .cancelled }
    else
      let pr := molsPass h pe m d
      match pr.2 with
      | none => { trace := pr.1, results := res, emitted := none, exit := .cancelled }
      | some pwm =>
        let out := molsRunAux h env rest (p + 1) (addResult res m pwm)
        { out with trace := pr.1 ++ Act.indicator :: out.trace }

/-- `MolsWorker.run`. -/
def molsRun (h : MolsHyps) (dirs : Nat → List Bool) (env : Nat → MolsPassObs) :
    MolsRunOut :=
  molsRunAux h env (molsPassList h dirs) 0 []

/-- Does a wait observation carry an answer different from `positive`
(so the probe keeps walking)? -/
def waitIsOtherAnswer (w : WaitOutcome) (positive : String) : Bool :=
  match w with
  | .cancelled => false
  | .answer a => a != positive

/-- Does a pass list run to completion from pass number `p` on: every pass
reads `_stop = False` at the loop head and its probe returns a
threshold? -/
def passesCleanB (h : MolsHyps) (env : Nat → MolsPassObs) :
    List (Nat × Bool) → Nat → Bool
  | [], _ => true
  | (m, d) :: rest, p =>
    !(env p).stopAtHead && (molsPass h (env p) m d).2.isSome &&
      passesCleanB h env rest (p + 1)

/-! ## Spatial test (`core/spatial_test.py`) -/

/-- Hyperparameters read by the spatial test. -/
structure SpatialHyps where
  nMotors : Nat
  numMotorStart : Nat
  numMotorEnd : Nat
  useMotorsStep : Nat
  maxCounterSamples : Nat
  spatialPwm : Int
deriving DecidableEq, Repr

/-- The two presentation modes of the spatial test. -/
inductive SpatialMode where
  | pairs
  | single
deriving DecidableEq, Repr

/-- The starting motors of the addressable regions:
`range(start, end, step)` in `pairs` mode (excluding the incomplete final
pair), `range(start, end + 1)` in `single` mode. -/
def spatialUses (h : SpatialHyps) (mode : SpatialMode) : List Nat :=
  match mode with
  | .pairs => pyRange h.numMotorStart h.numMotorEnd h.useMotorsStep
  | .single => pyRange h.numMotorStart (h.numMotorEnd + 1) 1

/-- The recorded region index of a stimulus starting at motor `m0`:
`(m0 - start) // step + 1`, with the configured `use_motors_step` in both
modes. -/
def spatialTrueRegion (h : SpatialHyps) (m0 : Nat) : Nat :=
  (m0 - h.numMotorStart) / h.useMotorsStep + 1

/-- The presentation multiset before shuffling: `q = S // U` full copies of
the pool plus, when `r = S % U > 0`, the `r` regions drawn by
`random.sample(uses, r)` (the draw is passed in as `extras`). -/
def spatialBaseSeq (uses : List Nat) (samples : Nat) (extras : List Nat) : List Nat :=
  (List.replicate (samples / uses.length) uses).flatten ++
    (if 0 < samples % uses.length then extras else [])

/-- Outcome of one spatial response wait: the loop was left because the
cancellation flag was set (or no answer had arrived), or because the
patient pressed region `r`. -/
inductive SpatialWaitObs where
  | cancelled
  | answer (r : Nat)
deriving DecidableEq, Repr

/-- Observations consumed by one spatial presentation: the `_stop` flag
at the loop head, then the wait outcome. -/
structure SpatialStepObs where
  stopAtHead : Bool
  wait : SpatialWaitObs
deriving DecidableEq, Repr

/-- Payload of the spatial `finished` signal. -/
structure SpatialResult where
  answers : List (Nat × Nat)
  mode : SpatialMode
deriving DecidableEq, Repr

/-- Output of the spatial presentation loop. -/
structure SpatialLoopOut where
  trace : List Act
  answers : List (Nat × Nat)
  exit : ExitKind

/-- The presentation loop of `SpatialWorker.run`: per presentation, check
`_stop`, stimulate each motor of the region in turn (with an explicit
bound check on the motor index), reset, wait; a cancellation at either
check breaks out without recording the in-flight trial. -/
def spatialLoop (h : SpatialHyps) (mode : SpatialMode)
    (env : Nat → SpatialStepObs) : List Nat → Nat → SpatialLoopOut
  | [], _ => { trace := [], answers := [], exit := .completed }
  | m0 :: rest, idx =>
    let ob := env idx
    if ob.stopAtHead then { trace := [], answers := [], exit := .cancelled }
    else
      let mots : List Nat := match mode with
        | .pairs => [m0, m0 + 1]
        | .single => [m0]
      let pres : List Act :=
        mots.map (fun mot => Act.set (singleOn h.nMotors mot h.spatialPwm)) ++ [Act.reset]
      match ob.wait with
      | .cancelled => { trace := pres, answers := [], exit := .cancelled }
      | .answer r =>
        let out := spatialLoop h mode env rest (idx + 1)
        { trace := pres ++ out.trace,
          answers := (spatialTrueRegion h m0, r) :: out.answers,
          exit := out.exit }

/-- Output of `SpatialWorker.run`. -/
structure SpatialRunOut where
  trace : List Act
  emitted : Option SpatialResult
  exit : ExitKind

/-- `SpatialWorker.run` on the already-shuffled presentation list `seq`:
an empty region pool returns before any hardware access; otherwise the
`finished` signal is emitted with whatever answers were collected — also
when the loop was broken by the cancellation flag. -/
def spatialRun (h : SpatialHyps) (mode : SpatialMode) (seq : List Nat)
    (env : Nat → SpatialStepObs) : SpatialRunOut :=
  if spatialUses h mode = [] then
    { trace := [], emitted := none, exit := .aborted }
  else
    let o := spatialLoop h mode env seq 0
    { trace := o.trace, emitted := some ⟨o.answers, mode⟩, exit := o.exit }

/-- The answer a wait observation carries (dummy 0 for a cancelled wait,
which never reaches the recording step). -/
def spatialAnsOf : SpatialWaitObs → Nat
  | .cancelled => 0
  | .answer r => r

/-- Does this spatial wait observation carry an answer? -/
def spatialIsAnswer : SpatialWaitObs → Bool
  | .cancelled => false
  | .answer _ => true

/-- The trials the spatial loop records for the first `k` presentations
of the remaining sequence, starting at presentation index `i`. -/
def spatialPrefixAnswers (h : SpatialHyps) (env : Nat → SpatialStepObs) :
    List Nat → Nat → Nat → List (Nat × Nat)
  | _, _, 0 => []
  | [], _, _ + 1 => []
  | m0 :: rest, i, k + 1 =>
    (spatialTrueRegion h m0, spatialAnsOf (env i).wait) ::
      spatialPrefixAnswers h env rest (i + 1) k

/-! ## PM-PWM test (`core/pmpwm_test.py`) -/

/-- Hyperparameters read by the PM-PWM test. -/
structure PmpwmHyps where
  nMotors : Nat
  pwmValues : List Int
  repeats : Nat
deriving DecidableEq, Repr

/-- Outcome of one PM-PWM response wait. -/
inductive PmpwmWaitObs where
  | cancelled
  | answer (lvl : Nat)
deriving DecidableEq, Repr

/-- Output of the per-motor presentation loop. -/
structure MotorLoopOut where
  trace : List Act
  trials : List (Nat × Nat)
  stopped : Bool

/-- The per-motor loop of `PMPWMWorker.run`: present each (already
shuffled) PWM value on `motor` alone, reset, wait; a cancellation during
the wait resets again and returns without recording the in-flight trial;
an answer appends `(pwm_values.index(pwm) + 1, answer)`. -/
def pmpwmMotorLoop (n : Nat) (pwmValues : List Int) (motor : Nat)
    (env : Nat → PmpwmWaitObs) : List Int → Nat → MotorLoopOut
  | [], _ => { trace := [], trials := [], stopped := false }
  | pwm :: rest, k =>
    let pres : List Act := [Act.set (singleOn n motor pwm), Act.reset]
    match env k with
    | .cancelled => { trace := pres ++ [Act.reset], trials := [], stopped := true }
    | .answer a =>
      let out := pmpwmMotorLoop n pwmValues motor env rest (k + 1)
      { trace := pres ++ out.trace,
        trials := (pyIndex pwmValues pwm + 1, a) :: out.trials,
        stopped := out.stopped }

/-- `cm[t-1, p-1] += 1` over the recorded pairs (both categories are
1-based and in range for every run driven from the GUI's level buttons). -/
def pmpwmConfusion (nLevels : Nat) (answers : List (Nat × Nat)) : List (List Nat) :=
  (List.range nLevels).map (fun i => (List.range nLevels).map (fun j =>
    answers.countP (fun tp => tp.1 == i + 1 && tp.2 == j + 1)))

/-- Payload of the worker's `finished` signal (`answers` concatenates the
per-motor trial lists in dict order; `accuracy = correct / len(answers)`;
`per_level_accuracy = diag / rowsums.clip(min=1)`). -/
structure PmpwmResult where
  answers : List (Nat × Nat)
  accuracy : ℚ
  pwmValues : List Int
  repeats : Nat
  confusion : List (List Nat)
  perLevelAccuracy : List ℚ
  motors : List Nat
deriving DecidableEq, Repr

/-- Builds the `finished` payload of `PMPWMWorker.run`. -/
def pmpwmBuildResult (h : PmpwmHyps) (motors : List Nat)
    (res : List (Nat × List (Nat × Nat))) : PmpwmResult :=
  let answers := (res.map (fun e => e.2)).flatten
  let correct := answers.countP (fun tp => tp.1 == tp.2)
  let cm := pmpwmConfusion h.pwmValues.length answers
  { answers := answers,
    accuracy := (correct : ℚ) / (answers.length : ℚ),
    pwmValues := h.pwmValues,
    repeats := h.repeats,
    confusion := cm,
    perLevelAccuracy := (List.range h.pwmValues.length).map (fun i =>
      (((cm.getD i []).getD i 0 : ℚ)) / ((max 1 ((cm.getD i []).sum) : ℕ) : ℚ)),
    motors := motors }

/-- Output of the motor loop of `PMPWMWorker.run`. -/
structure PmpwmLoopOut where
  trace : List Act
  results : List (Nat × List (Nat × Nat))
  fin : List Nat
  stopped : Bool

/-- The motor loop of `PMPWMWorker.run` from motor position `pos` on:
entering a motor clears its slot in `self.results` (the "rewrite" reset)
and the slot ends up holding exactly the trials its loop appended; a
completed motor fires `motorFinished`; a cancellation stops the run with
the partial `results` retained on the worker. -/
def pmpwmRunAux (h : PmpwmHyps) (seqOf : Nat → List Int)
    (env : Nat → Nat → PmpwmWaitObs) :
    List Nat → Nat → List (Nat × List (Nat × Nat)) → List Nat → PmpwmLoopOut
  | [], _, res, fin => { trace := [], results := res, fin := fin, stopped := false }
  | motor :: rest, pos, res, fin =>
    let o := pmpwmMotorLoop h.nMotors h.pwmValues motor (env pos) (seqOf pos) 0
    let res1 := dictSet res motor o.trials
    if o.stopped then
      { trace := o.trace, results := res1, fin := fin, stopped := true }
    else
      let out := pmpwmRunAux h seqOf env rest (pos + 1) res1 (fin ++ [motor])
      { out with trace := o.trace ++ out.trace }

/-- Output of `PMPWMWorker.run`: the trace, the worker's `self.results`
dict as left on the instance, the motors for which `motorFinished` fired,
the `finished` payload if emitted, and the exit kind. -/
structure PmpwmRunOut where
  trace : List Act
  results : List (Nat × List (Nat × Nat))
  finishedMotors : List Nat
  emitted : Option PmpwmResult
  exit : ExitKind

/-- `PMPWMWorker.run`: a cancelled run returns with no `finished` payload
and no end indicator, but keeps `self.results`; a completed run fires the
end indicator and emits the aggregated payload. -/
def pmpwmRun (h : PmpwmHyps) (motors : List Nat) (seqOf : Nat → List Int)
    (env : Nat → Nat → PmpwmWaitObs) : PmpwmRunOut :=
  let o := pmpwmRunAux h seqOf env motors 0 [] []
  if o.stopped then
    { trace := o.trace, results := o.results, finishedMotors := o.fin,
      emitted := none, exit := .cancelled }
  else
    { trace := o.trace ++ [Act.indicator], results := o.results,
      finishedMotors := o.fin,
      emitted := some (pmpwmBuildResult h motors o.results), exit := .completed }

/-- The answer a PM-PWM wait observation carries (dummy 0 for a cancelled
wait, which never reaches the recording step). -/
def pmAnsOf : PmpwmWaitObs → Nat
  | .cancelled => 0
  | .answer a => a

/-- Does this PM-PWM wait observation carry an answer? -/
def pmIsAnswer : PmpwmWaitObs → Bool
  | .cancelled => false
  | .answer _ => true

/-- Do the motors of this list all run to completion from motor position
`pos` on (every presentation of each one is answered)? -/
def pmpwmPreAnswered (seqOf : Nat → List Int) (env : Nat → Nat → PmpwmWaitObs) :
    List Nat → Nat → Bool
  | [], _ => true
  | _ :: rest, pos =>
    ((List.range (seqOf pos).length).all (fun j => pmIsAnswer (env pos j))) &&
      pmpwmPreAnswered seqOf env rest (pos + 1)

/-- The trials one PM-PWM motor loop records for the first `k`
presentations of the remaining sequence, starting at step index `j`. -/
def pmpwmPrefixTrials (pwmValues : List Int) (env : Nat → PmpwmWaitObs) :
    List Int → Nat → Nat → List (Nat × Nat)
  | _, _, 0 => []
  | [], _, _ + 1 => []
  | v :: vs, j, k + 1 =>
    (pyIndex pwmValues v + 1, pmAnsOf (env j)) ::
      pmpwmPrefixTrials pwmValues env vs (j + 1) k

/-! ## PM-PWM per-motor bookkeeping (`gui/main_window.py`) -/

/-- `set.discard`. -/
def setDiscard (s : List Nat) (m : Nat) : List Nat :=
  s.filter (fun x => x ≠ m)

/-- `set.add`. -/
def setAdd (s : List Nat) (m : Nat) : List Nat :=
  if m ∈ s then s else s ++ [m]

/-- The main window's PM-PWM bookkeeping state. -/
structure PmpwmGuiState where
  motorsAll : List Nat
  motorsCompleted : List Nat
  resultsPmpwm : List (Nat × List (Nat × Nat))
  pendingQueue : List Nat
deriving DecidableEq, Repr

/-- `_run_pmpwm_for_motor`, before the fresh worker reports back: discard
the motor from the completed set, pop its old trials, queue the other
unfinished motors. -/
def runPmpwmForMotor (st : PmpwmGuiState) (motor : Nat) : PmpwmGuiState :=
  let completed := setDiscard st.motorsCompleted motor
  { st with
    motorsCompleted := completed,
    resultsPmpwm := dictPop st.resultsPmpwm motor,
    pendingQueue := st.motorsAll.filter (fun m => decide (m ∉ completed ∧ m ≠ motor)) }

/-- `_on_motor_done`: mark the motor completed and copy the worker's
trials for it into the main window's dict. -/
def onMotorDone (st : PmpwmGuiState) (motor : Nat) (trials : List (Nat × Nat)) :
    PmpwmGuiState :=
  { st with
    motorsCompleted := setAdd st.motorsCompleted motor,
    resultsPmpwm := dictSet st.resultsPmpwm motor trials }

/-- One motor's accuracy as computed by `_finish_pmpwm`:
`correct / len(trials)`, and `0.0` for a motor with no recorded trials. -/
def motorAccEntry (results : List (Nat × List (Nat × Nat))) (m : Nat) : ℚ :=
  let loc := (dictGet? results m).getD []
  if loc.isEmpty then 0
  else (loc.countP (fun tp => tp.1 == tp.2) : ℚ) / (loc.length : ℚ)

/-- The per-motor accuracies computed by `_finish_pmpwm` over all motors
of the run. -/
def perMotorAcc (motorsAll : List Nat) (results : List (Nat × List (Nat × Nat))) :
    List (Nat × ℚ) :=
  motorsAll.map (fun m => (m, motorAccEntry results m))

/-- The complete "rewrite" flow for one motor: `_run_pmpwm_for_motor`
launches a fresh worker on `[motor]` alone; if that worker finishes,
`_on_motor_done` copies its trials back into the main window's state. -/
def rewriteMotor (h : PmpwmHyps) (st : PmpwmGuiState) (motor : Nat)
    (seqM : List Int) (env : Nat → PmpwmWaitObs) : PmpwmGuiState :=
  let st1 := runPmpwmForMotor st motor
  let o := pmpwmRun h [motor] (fun _ => seqM) (fun _ => env)
  if o.exit = .completed then
    onMotorDone st1 motor ((dictGet? o.results motor).getD [])
  else st1

/-! ## Spatial outcome reducer (`core/spatial_analysis.py`) -/

/-- One region's running statistics. -/
structure RegionStat where
  total : Nat
  correct : Nat
  dist : List (Nat × Nat)
deriving DecidableEq, Repr

/-- `st['answers'][pred] += 1` on a `defaultdict(int)`. -/
def bumpDist : List (Nat × Nat) → Nat → List (Nat × Nat)
  | [], p => [(p, 1)]
  | (k, c) :: rest, p =>
    if k = p then (k, c + 1) :: rest else (k, c) :: bumpDist rest p

/-- One iteration of the aggregation loop of `analyse_spatial`:
`stats.setdefault(true, fresh)` then bump `total`, `correct`, `answers`. -/
def bumpStat : List (Nat × RegionStat) → Nat → Nat → List (Nat × RegionStat)
  | [], t, p => [(t, ⟨1, if t = p then 1 else 0, [(p, 1)]⟩)]
  | (r, s) :: rest, t, p =>
    if r = t then
      (r, ⟨s.total + 1, s.correct + (if t = p then 1 else 0), bumpDist s.dist p⟩) :: rest
    else (r, s) :: bumpStat rest t p

/-- The aggregation loop of `analyse_spatial`. -/
def spatialFold : List (Nat × Nat) → List (Nat × RegionStat) → List (Nat × RegionStat)
  | [], st => st
  | (t, p) :: rest, st => spatialFold rest (bumpStat st t p)

/-- Σ of the per-region trial counters of an aggregation state. -/
def statTotalSum (st : List (Nat × RegionStat)) : Nat :=
  (st.map (fun e => e.2.total)).sum

/-- Σ of the per-region correct counters of an aggregation state. -/
def statCorrectSum (st : List (Nat × RegionStat)) : Nat :=
  (st.map (fun e => e.2.correct)).sum

/-- The statistics an aggregation state holds for region `r`. -/
def keyStat (st : List (Nat × RegionStat)) (r : Nat) : RegionStat :=
  (dictGet? st r).getD ⟨0, 0, []⟩

/-- The keys of an aggregation state. -/
def keysOf (st : List (Nat × RegionStat)) : List Nat :=
  st.map (fun e => e.1)

/-- Result of `analyse_spatial`: each region with its statistics and
accuracy, plus the overall mean accuracy. -/
structure SpatialAnalysis where
  regions : List (Nat × RegionStat × ℚ)
  meanAccuracy : ℚ
deriving DecidableEq, Repr

/-- `analyse_spatial`: per-region accuracy `correct / max(1, total)` and
overall `mean_accuracy = Σ correct / max(1, Σ total)`. -/
def analyseSpatial (answers : List (Nat × Nat)) : SpatialAnalysis :=
  let stats := spatialFold answers []
  { regions := stats.map (fun e =>
      (e.1, e.2, (e.2.correct : ℚ) / ((max 1 e.2.total : ℕ) : ℚ))),
    meanAccuracy := ((statCorrectSum stats : ℕ) : ℚ) /
      ((max 1 (statTotalSum stats) : ℕ) : ℚ) }

/-! ## PM-PWM analysis (`core/pmpwm_analysis.py`) -/

/-- Row normalisation: `norm[i][j] = cm[i][j] / max(1, Σ_j cm[i][j])`
(`cm.sum(axis=1, keepdims=True).clip(min=1)`). -/
def cmNorm (cm : List (List Int)) : List (List ℚ) :=
  cm.map (fun row => row.map (fun x : ℤ => (x : ℚ) / ((max 1 row.sum : ℤ) : ℚ)))

/-- `acc = {i+1: cm_norm[i, i]}` as a 0-based list of the diagonal. -/
def accOf (cm : List (List Int)) : List ℚ :=
  (List.range cm.length).map (fun i => ((cmNorm cm).getD i []).getD i 0)

/-- `bad = [lvl for lvl, a in acc.items() if a < .75]` (levels are the
1-based keys, already in ascending order, so `bad.sort()` is a no-op). -/
def badLevels (acc : List ℚ) : List Nat :=
  ((List.range acc.length).filter (fun i => decide (acc.getD i 0 < 3/4))).map (· + 1)

/-- The `itertools.groupby(bad, key=x - next(counter))` idiom: group the
strictly increasing level list into maximal runs of consecutive
integers. -/
def groupRuns : List Nat → List (List Nat)
  | [] => []
  | x :: xs =>
    match groupRuns xs with
    | [] => [[x]]
    | [] :: gs => [x] :: [] :: gs
    | (y :: ys) :: gs =>
      if y = x + 1 then (x :: y :: ys) :: gs else [x] :: (y :: ys) :: gs

/-- The structured content of one textual recommendation. -/
inductive Directive where
  | removeLevel (lvl : Nat) (pwm : Int)
  | mergeLevels (lvls : List Nat) (pwm : ℤ)
  | mergePair (i j : Nat) (pwm : ℤ)
  | noCorrection
deriving DecidableEq, Repr

/-- `_recommend`: levels under 75 % accuracy dominate — a singleton run is
dropped, a longer run is merged at the rounded mean PWM, and the function
returns; otherwise the ascending `(i, j)` scan collects the mutually
confused pairs (`norm[i][j] ≥ .10` and `norm[j][i] ≥ .10`) and merges the
first one at the rounded mean of the two PWMs; otherwise no correction. -/
def recommend (cmN : List (List ℚ)) (acc : List ℚ) (pwmVals : List Int) :
    List Directive :=
  let bad := badLevels acc
  if bad.isEmpty then
    let n := cmN.length
    let pairErr := ((List.range n).flatMap (fun i =>
        ((List.range n).filter (fun j => decide (i < j))).map
          (fun j => (i + 1, j + 1)))).filter
      (fun ij => decide (1/10 ≤ (cmN.getD (ij.1 - 1) []).getD (ij.2 - 1) 0) &&
                 decide (1/10 ≤ (cmN.getD (ij.2 - 1) []).getD (ij.1 - 1) 0))
    match pairErr with
    | (i, j) :: _ =>
      [Directive.mergePair i j (roundHalfEven
        (((pwmVals.getD (i - 1) 0 : ℚ) + (pwmVals.getD (j - 1) 0 : ℚ)) / 2))]
    | [] => [Directive.noCorrection]
  else
    (groupRuns bad).map (fun g =>
      if g.length = 1 then
        Directive.removeLevel (g.headD 0) (pwmVals.getD (g.headD 0 - 1) 0)
      else
        Directive.mergeLevels g
          (roundHalfEven (listMean (g.map (fun i => pwmVals.getD (i - 1) 0)))))

/-- The three-step recommendation rule exactly as the spec words it:
collect the below-0.75 categories; if any exist, group contiguous runs and
recommend removal (singleton) or a merge at the rounded mean intensity and
stop; only if all categories pass, take the first unordered pair in
ascending index order with mutual cross-confusion of at least 0.10 each
way and merge it at the mean of the two intensities; otherwise report that
no correction is needed. -/
def recommendSpec (cmN : List (List ℚ)) (acc : List ℚ) (pwmVals : List Int) :
    List Directive :=
  let low := (List.range acc.length).filterMap
    (fun i => if acc.getD i 0 < 3/4 then some (i + 1) else none)
  if low = [] then
    let n := cmN.length
    let firstPair := ((List.range n).flatMap (fun i =>
        ((List.range n).filter (fun j => decide (i < j))).map
          (fun j => (i + 1, j + 1)))).find?
      (fun ij => decide (1/10 ≤ (cmN.getD (ij.1 - 1) []).getD (ij.2 - 1) 0 ∧
                 1/10 ≤ (cmN.getD (ij.2 - 1) []).getD (ij.1 - 1) 0))
    match firstPair with
    | some (i, j) =>
      [Directive.mergePair i j (roundHalfEven
        (((pwmVals.getD (i - 1) 0 : ℚ) + (pwmVals.getD (j - 1) 0 : ℚ)) / 2))]
    | none => [Directive.noCorrection]
  else
    (groupRuns low).map (fun g =>
      if g.length = 1 then
        Directive.removeLevel (g.headD 0) (pwmVals.getD (g.headD 0 - 1) 0)
      else
        Directive.mergeLevels g
          (roundHalfEven (listMean (g.map (fun i => pwmVals.getD (i - 1) 0)))))

/-- `np.round(x, 4)` on an exact rational. -/
def npRound4 (q : ℚ) : ℚ := (roundHalfEven (q * 10000) : ℚ) / 10000

/-- Result of `analyse_cm`. -/
structure CmAnalysis where
  confusion : List (List Int)
  confusionNorm : List (List ℚ)
  accuracy : List ℚ
  meanAccuracy : ℚ
  recommendations : List Directive
deriving DecidableEq, Repr

/-- `analyse_cm`: the stored normalised matrix and accuracies are rounded
to 4 decimals for display; the recommendations are computed from the exact
values. -/
def analyseCm (cm : List (List Int)) (pwmVals : List Int) : CmAnalysis :=
  let cmN := cmNorm cm
  let acc := accOf cm
  { confusion := cm,
    confusionNorm := cmN.map (fun row => row.map npRound4),
    accuracy := acc.map npRound4,
    meanAccuracy := npRound4 (acc.sum / (acc.length : ℚ)),
    recommendations := recommend cmN acc pwmVals }

/-- The default hyperparameter profile of `core/config.py`, restricted to
the fields the MOLs test reads. -/
def molsHypsDefault : MolsHyps := ⟨10, 0, 5, 2, 3, 0, 30, -5, 2⟩

/-- Scripted patient: first negative response at presentation 4. -/
def ansFirstNAt4 : Nat → String := fun i => if i = 4 then "n" else "y"

/-- Scripted patient: first positive response at presentation 4. -/
def ansFirstYAt4 : Nat → String := fun i => if i = 4 then "y" else "n"

/-- Scripted patient answering "y" forever. -/
def ansAlwaysY : Nat → String := fun _ => "y"

/-- Scripted patient answering "n" forever. -/
def ansAlwaysN : Nat → String := fun _ => "n"

/-- A legitimate single-mode configuration: motors 0..1 with the spatial
dialog's default step 2 (offered because the 2-motor range divides by 2). -/
def spatialHypsSingleStep2 : SpatialHyps := ⟨10, 0, 1, 2, 20, 30⟩

/-- A single-mode configuration with step 1 over motors 0..5. -/
def spatialHypsSingleStep1 : SpatialHyps := ⟨10, 0, 5, 1, 20, 30⟩

/-- Spatial environment: never cancelled, always answer region 1. -/
def envAnswer1 : Nat → SpatialStepObs := fun _ => ⟨false, SpatialWaitObs.answer 1⟩

/-- A small PM-PWM profile: three intensity levels, one repeat. -/
def pmpwmHypsSmall : PmpwmHyps := ⟨10, [14, 22, 36], 1⟩

/-- PM-PWM environment: never cancelled, always answer level 1. -/
def pmEnvAnswer1 : Nat → PmpwmWaitObs := fun _ => PmpwmWaitObs.answer 1

/-- A bookkeeping state with motors 0 and 2 completed. -/
def guiStateTwoDone : PmpwmGuiState :=
  ⟨[0, 2], [0, 2], [(0, [(1, 1)]), (2, [(2, 1)])], []⟩

/-- The default spatial configuration of `core/config.py`. -/
def spatialHypsDefault : SpatialHyps := ⟨10, 0, 5, 2, 20, 30⟩

/-- Spatial environment: cancellation arrives during the first wait. -/
def envCancelFirstWait : Nat → SpatialStepObs :=
  fun _ => ⟨false, SpatialWaitObs.cancelled⟩

/-- Spatial environment: answer 1 on the first presentation, cancellation
during the second wait. -/
def spatialEnvCancelAt1 : Nat → SpatialStepObs :=
  fun i => if i = 1 then ⟨false, SpatialWaitObs.cancelled⟩
    else ⟨false, SpatialWaitObs.answer 1⟩

/-- MOLs directions: one descending pass per motor. -/
def dirsAllDown : Nat → List Bool := fun _ => [true]

/-- MOLs environment: the `_stop` flag is already set at the first pass
head. -/
def molsEnvStopHead : Nat → MolsPassObs :=
  fun _ => ⟨true, 40, fun _ => ⟨false, WaitOutcome.cancelled⟩⟩

/-- MOLs environment: the pass starts, and cancellation arrives during the
first response wait of the probe. -/
def molsEnvCancelFirstWait : Nat → MolsPassObs :=
  fun _ => ⟨false, 40, fun _ => ⟨false, WaitOutcome.cancelled⟩⟩

/-- PM-PWM presentation order: the schedule in configured order. -/
def pmSeqOfDefault : Nat → List Int := fun _ => [14, 22, 36]

/-- PM-PWM environment: motor position 0 answers level 2 throughout;
motor position 1 answers its first presentation, then cancellation
arrives during its second wait. -/
def pmEnvCancelMotor1At1 : Nat → Nat → PmpwmWaitObs :=
  fun pos j =>
    if pos = 0 then PmpwmWaitObs.answer 2
    else if j = 0 then PmpwmWaitObs.answer 1 else PmpwmWaitObs.cancelled

/-! ## Theorems -/

/-- If the patient's first `positive` answer comes at step `k` of the
sequence, `_probe` stops there and returns that intensity plus
`abs(delta_pwm_down)` on a descending pass (`positive = "n"`), the raw
intensity otherwise. -/
theorem probe_respEnv_first_positive (h : MolsHyps) (motorIdx : Nat) (positive : String)
    (ans : Nat → String) :
    ∀ (seq : List Int) (off k : Nat) (hk : k < seq.length),
      (∀ i < k, ans (off + i) ≠ positive) → ans (off + k) = positive →
      (probe h motorIdx positive (respEnv ans) seq off).2 =
        some (seq.get ⟨k, hk⟩ + (if positive = "n" then |h.deltaPwmDown| else 0)) := by
  intro seq
  induction seq with
  | nil => intro off k hk; exact absurd hk (by simp)
  | cons v vs ih =>
    intro off k hk hbefore hat
    cases k with
    | zero =>
      have hoff : ans off = positive := by simpa using hat
      simp [probe, respEnv, hoff]
    | succ k =>
      have h0 : ans off ≠ positive := by
        have := hbefore 0 (Nat.succ_pos k)
        simpa using this
      have hk' : k < vs.length := Nat.lt_of_succ_lt_succ hk
      have hb' : ∀ i < k, ans (off + 1 + i) ≠ positive := by
        intro i hi
        have := hbefore (i + 1) (Nat.succ_lt_succ hi)
        have e : off + (i + 1) = off + 1 + i := by omega
        rwa [e] at this
      have ha' : ans (off + 1 + k) = positive := by
        have e : off + (k + 1) = off + 1 + k := by omega
        rwa [e] at hat
      have := ih (off + 1) k hk' hb' ha'
      simpa [probe, respEnv, h0] using this

/-- If the patient never gives the `positive` answer along the whole
sequence, `_probe` returns the floor value: `abs(delta_pwm_down)` on a
descending pass, `end_pwm_up` on an ascending one. -/
theorem probe_respEnv_exhausted (h : MolsHyps) (motorIdx : Nat) (positive : String)
    (ans : Nat → String) :
    ∀ (seq : List Int) (off : Nat),
      (∀ i < seq.length, ans (off + i) ≠ positive) →
      (probe h motorIdx positive (respEnv ans) seq off).2 =
        some (if positive = "n" then |h.deltaPwmDown| else h.endPwmUp) := by
  intro seq
  induction seq with
  | nil => intro off _; simp [probe]
  | cons v vs ih =>
    intro off hall
    have h0 : ans off ≠ positive := by
      have := hall 0 (by simp)
      simpa using this
    have hall' : ∀ i < vs.length, ans (off + 1 + i) ≠ positive := by
      intro i hi
      have := hall (i + 1) (by simpa using Nat.succ_lt_succ hi)
      have e : off + (i + 1) = off + 1 + i := by omega
      rwa [e] at this
    have := ih (off + 1) hall'
    simpa [probe, respEnv, h0] using this

/-- **C1**: For every descending staircase pass of the threshold test, if
the patient's first negative response occurs at intensity `v` (step `k` of
the pass sequence), the pass returns `v + |delta_pwm_down|`, and if the
whole descending sequence is exhausted with no negative response the pass
returns `|delta_pwm_down|`; for every ascending pass, the pass returns the
intensity of the first positive response, or `end_pwm_up` if the sequence
is exhausted with no positive response. -/
theorem mols_staircase_pass_return (h : MolsHyps) (motorIdx : Nat)
    (sDown sUp : Int) (ans : Nat → String) (k : Nat) :
    (∀ hk : k < (downSeq h sDown).length,
        (∀ i < k, ans i ≠ "n") → ans k = "n" →
        (downstream h motorIdx sDown (respEnv ans)).2 =
          some ((downSeq h sDown).get ⟨k, hk⟩ + |h.deltaPwmDown|))
    ∧ ((∀ i < (downSeq h sDown).length, ans i ≠ "n") →
        (downstream h motorIdx sDown (respEnv ans)).2 = some |h.deltaPwmDown|)
    ∧ (∀ hk : k < (upSeq h sUp).length,
        (∀ i < k, ans i ≠ "y") → ans k = "y" →
        (upstream h motorIdx sUp (respEnv ans)).2 =
          some ((upSeq h sUp).get ⟨k, hk⟩))
    ∧ ((∀ i < (upSeq h sUp).length, ans i ≠ "y") →
        (upstream h motorIdx sUp (respEnv ans)).2 = some h.endPwmUp) := by
  refine ⟨fun hk hb ha => ?_, fun hall => ?_, fun hk hb ha => ?_, fun hall => ?_⟩
  · have := probe_respEnv_first_positive h motorIdx "n" ans (downSeq h sDown) 0 k hk
      (by simpa using hb) (by simpa using ha)
    simpa [downstream] using this
  · have := probe_respEnv_exhausted h motorIdx "n" ans (downSeq h sDown) 0
      (by simpa using hall)
    simpa [downstream] using this
  · have := probe_respEnv_first_positive h motorIdx "y" ans (upSeq h sUp) 0 k hk
      (by simpa using hb) (by simpa using ha)
    simpa [upstream] using this
  · have := probe_respEnv_exhausted h motorIdx "y" ans (upSeq h sUp) 0
      (by simpa using hall)
    simpa [upstream] using this

/-- Witness for `mols_staircase_pass_return` on the default profile
(`delta_pwm_down = -5`, `end_pwm_up = 30`): descending from 40 with first
"n" at step 4 (intensity 20) yields `20 + 5 = 25`; an all-"y" descending
pass yields the floor `5`; ascending from 2 with first "y" at step 4
(intensity 10) yields `10`; an all-"n" ascending pass yields `30`. -/
theorem mols_staircase_pass_return_witness :
    (downstream molsHypsDefault 0 40 (respEnv ansFirstNAt4)).2 = some 25
    ∧ (downstream molsHypsDefault 0 40 (respEnv ansAlwaysY)).2 = some 5
    ∧ (upstream molsHypsDefault 0 2 (respEnv ansFirstYAt4)).2 = some 10
    ∧ (upstream molsHypsDefault 0 2 (respEnv ansAlwaysN)).2 = some 30 := by
  refine ⟨?_, ?_, ?_, ?_⟩
  · have hk : (4 : Nat) < (downSeq molsHypsDefault 40).length := by decide
    have hv : (downSeq molsHypsDefault 40).get ⟨4, hk⟩ = 20 := rfl
    have h1 := (mols_staircase_pass_return molsHypsDefault 0 40 2 ansFirstNAt4 4).1
      hk (by decide) (by decide)
    rw [hv] at h1
    exact h1.trans (by decide)
  · exact ((mols_staircase_pass_return molsHypsDefault 0 40 2 ansAlwaysY 0).2.1
      (by decide)).trans (by decide)
  · have hk : (4 : Nat) < (upSeq molsHypsDefault 2).length := by decide
    have hv : (upSeq molsHypsDefault 2).get ⟨4, hk⟩ = 10 := rfl
    have h1 := (mols_staircase_pass_return molsHypsDefault 0 40 2 ansFirstYAt4 4).2.2.1
      hk (by decide) (by decide)
    rw [hv] at h1
    exact h1
  · exact ((mols_staircase_pass_return molsHypsDefault 0 40 2 ansAlwaysN 0).2.2.2
      (by decide)).trans (by decide)

theorem getD_replicate_zero : ∀ n i : Nat, (List.replicate n (0 : ℚ)).getD i 0 = 0 := by
  intro n
  induction n with
  | zero => intro i; simp
  | succ n ih =>
    intro i
    cases i with
    | zero => simp [List.replicate]
    | succ i => simpa [List.replicate] using ih i

/-- **C10**: The confusion-matrix analyser is total on every square integer
matrix: row `i` of the normalised matrix is row `i` of `cm` divided by
`max(1, row sum)`, and a category with an all-zero row (zero recorded
trials) yields a normalised row of zeros and a per-category accuracy of 0
rather than a division-by-zero failure. -/
theorem analyse_cm_total_zero_row (cm : List (List Int)) (i : Nat)
    (hi : i < cm.length) :
    ((cmNorm cm).getD i [] =
      (cm.getD i []).map (fun x : ℤ => (x : ℚ) / ((max 1 (cm.getD i []).sum : ℤ) : ℚ)))
    ∧ ((∀ x ∈ cm.getD i [], x = 0) →
        (cmNorm cm).getD i [] = List.replicate (cm.getD i []).length 0
        ∧ (accOf cm).getD i 0 = 0) := by
  have hm : cm.length ≤ i → False := fun h => absurd hi (Nat.not_lt.2 h)
  have hrow : cm.getD i [] = cm[i] := by
    rw [List.getD_eq_getElem?_getD, List.getElem?_eq_getElem hi, Option.getD_some]
  have hnorm : (cmNorm cm).getD i [] =
      (cm[i]).map (fun x : ℤ => (x : ℚ) / ((max 1 (cm[i]).sum : ℤ) : ℚ)) := by
    rw [cmNorm, List.getD_eq_getElem?_getD, List.getElem?_map,
      List.getElem?_eq_getElem hi]
    rfl
  refine ⟨by rw [hrow, hnorm], fun hz => ?_⟩
  rw [hrow] at hz
  have hzrow : ∀ c : ℚ, (cm[i]).map (fun x : ℤ => (x : ℚ) / c) =
      List.replicate (cm[i]).length 0 := by
    intro c
    refine List.eq_replicate_iff.2 ⟨by simp, ?_⟩
    intro b hb
    obtain ⟨x, hx, rfl⟩ := List.mem_map.1 hb
    rw [hz x hx]
    simp
  have hacc : (accOf cm).getD i 0 = ((cmNorm cm).getD i []).getD i 0 := by
    rw [accOf, List.getD_eq_getElem?_getD, List.getElem?_map,
      List.getElem?_range hi]
    rfl
  refine ⟨by rw [hnorm, hzrow, hrow], ?_⟩
  rw [hacc, hnorm, hzrow, getD_replicate_zero]

/-- Witness for `analyse_cm_total_zero_row`: on `[[0,0],[1,2]]`, category 1
(row 0) has no trials, its normalised row is `[0, 0]` and its accuracy 0. -/
theorem analyse_cm_total_zero_row_witness :
    (cmNorm [[0, 0], [1, 2]]).getD 0 [] = [0, 0]
    ∧ (accOf [[0, 0], [1, 2]]).getD 0 0 = 0 := by
  obtain ⟨-, h2⟩ := analyse_cm_total_zero_row [[0, 0], [1, 2]] 0 (by decide)
  obtain ⟨ha, hb⟩ := h2 (by decide)
  exact ⟨ha.trans (by decide), hb⟩

theorem bumpStat_get_ne (t p r : Nat) (hne : r ≠ t) :
    ∀ st, dictGet? (bumpStat st t p) r = dictGet? st r := by
  intro st
  induction st with
  | nil => simp [bumpStat, dictGet?, Ne.symm hne]
  | cons e rest ih =>
    obtain ⟨k, s⟩ := e
    by_cases hk : k = t
    · subst hk
      simp [bumpStat, dictGet?, Ne.symm hne]
    · by_cases hr : k = r
      · subst hr
        simp [bumpStat, dictGet?, hne, hk]
      · simp [bumpStat, dictGet?, hk, hr, ih]

theorem bumpStat_get_eq (t p : Nat) :
    ∀ st, dictGet? (bumpStat st t p) t =
      some (match dictGet? st t with
        | none => ⟨1, if t = p then 1 else 0, [(p, 1)]⟩
        | some s => ⟨s.total + 1, s.correct + (if t = p then 1 else 0),
            bumpDist s.dist p⟩) := by
  intro st
  induction st with
  | nil => simp [bumpStat, dictGet?]
  | cons e rest ih =>
    obtain ⟨k, s⟩ := e
    by_cases hk : k = t
    · subst hk
      simp [bumpStat, dictGet?]
    · simp [bumpStat, dictGet?, hk, ih]

theorem bumpStat_totalSum (t p : Nat) :
    ∀ st, statTotalSum (bumpStat st t p) = statTotalSum st + 1 := by
  intro st
  induction st with
  | nil => simp [bumpStat, statTotalSum]
  | cons e rest ih =>
    obtain ⟨k, s⟩ := e
    by_cases hk : k = t
    · subst hk
      simp [bumpStat, statTotalSum]
      omega
    · simp only [bumpStat, if_neg hk, statTotalSum, List.map_cons, List.sum_cons]
      have := ih
      simp only [statTotalSum] at this
      omega

theorem bumpStat_correctSum (t p : Nat) :
    ∀ st, statCorrectSum (bumpStat st t p) =
      statCorrectSum st + (if t = p then 1 else 0) := by
  intro st
  induction st with
  | nil => simp [bumpStat, statCorrectSum]
  | cons e rest ih =>
    obtain ⟨k, s⟩ := e
    by_cases hk : k = t
    · subst hk
      simp [bumpStat, statCorrectSum]
      omega
    · simp only [bumpStat, if_neg hk, statCorrectSum, List.map_cons, List.sum_cons]
      have := ih
      simp only [statCorrectSum] at this
      omega

theorem spatialFold_totalSum :
    ∀ (answers : List (Nat × Nat)) st,
      statTotalSum (spatialFold answers st) = statTotalSum st + answers.length := by
  intro answers
  induction answers with
  | nil => intro st; simp [spatialFold]
  | cons a rest ih =>
    intro st
    obtain ⟨t, p⟩ := a
    simp only [spatialFold, ih, bumpStat_totalSum, List.length_cons]
    omega

theorem spatialFold_correctSum :
    ∀ (answers : List (Nat × Nat)) st,
      statCorrectSum (spatialFold answers st) =
        statCorrectSum st + answers.countP (fun tp => tp.1 == tp.2) := by
  intro answers
  induction answers with
  | nil => intro st; simp [spatialFold]
  | cons a rest ih =>
    intro st
    obtain ⟨t, p⟩ := a
    simp only [spatialFold, ih, bumpStat_correctSum, List.countP_cons]
    by_cases htp : t = p <;> simp [htp] <;> omega

theorem spatialFold_keyTotal :
    ∀ (answers : List (Nat × Nat)) st r,
      (keyStat (spatialFold answers st) r).total =
        (keyStat st r).total + answers.countP (fun tp => tp.1 == r) := by
  intro answers
  induction answers with
  | nil => intro st r; simp [spatialFold]
  | cons a rest ih =>
    intro st r
    obtain ⟨t, p⟩ := a
    simp only [spatialFold, ih, List.countP_cons]
    by_cases htr : t = r
    · subst htr
      have hb := bumpStat_get_eq t p st
      have : (keyStat (bumpStat st t p) t).total = (keyStat st t).total + 1 := by
        simp only [keyStat, hb]
        cases hst : dictGet? st t <;> simp [hst]
      rw [this]
      simp
      omega
    · have : keyStat (bumpStat st t p) r = keyStat st r := by
        simp [keyStat, bumpStat_get_ne t p r (Ne.symm htr)]
      rw [this]
      simp [htr]

theorem spatialFold_keyCorrect :
    ∀ (answers : List (Nat × Nat)) st r,
      (keyStat (spatialFold answers st) r).correct =
        (keyStat st r).correct +
          answers.countP (fun tp => tp.1 == r && tp.2 == r) := by
  intro answers
  induction answers with
  | nil => intro st r; simp [spatialFold]
  | cons a rest ih =>
    intro st r
    obtain ⟨t, p⟩ := a
    simp only [spatialFold, ih, List.countP_cons]
    by_cases htr : t = r
    · subst htr
      have hb := bumpStat_get_eq t p st
      have hkc : (keyStat (bumpStat st t p) t).correct =
          (keyStat st t).correct + (if t = p then 1 else 0) := by
        simp only [keyStat, hb]
        cases hst : dictGet? st t <;> simp [hst]
      rw [hkc]
      by_cases htp : t = p
      · subst htp
        simp
        omega
      · have hpr : ¬(p = t) := fun hh => htp hh.symm
        simp [htp, hpr]
    · have hku : keyStat (bumpStat st t p) r = keyStat st r := by
        simp [keyStat, bumpStat_get_ne t p r (Ne.symm htr)]
      rw [hku]
      simp [htr]

theorem spatialFold_get_none :
    ∀ (answers : List (Nat × Nat)) st r,
      dictGet? st r = none → answers.countP (fun tp => tp.1 == r) = 0 →
      dictGet? (spatialFold answers st) r = none := by
  intro answers
  induction answers with
  | nil => intro st r h _; simpa [spatialFold] using h
  | cons a rest ih =>
    intro st r h hc
    obtain ⟨t, p⟩ := a
    rw [List.countP_cons] at hc
    have htr : t ≠ r := by
      intro hh
      simp [hh] at hc
    simp only [spatialFold]
    exact ih (bumpStat st t p) r (by rw [bumpStat_get_ne t p r (Ne.symm htr)]; exact h)
      (by omega)

theorem dictGet?_none_iff_not_mem_keys :
    ∀ (st : List (Nat × RegionStat)) r, dictGet? st r = none ↔ r ∉ keysOf st := by
  intro st r
  induction st with
  | nil => simp [dictGet?, keysOf]
  | cons e rest ih =>
    obtain ⟨k, s⟩ := e
    by_cases hk : k = r <;> simp [dictGet?, keysOf, hk, ih] at ih ⊢ <;> tauto

theorem bumpStat_keys (t p : Nat) :
    ∀ st, keysOf (bumpStat st t p) =
      if dictGet? st t = none then keysOf st ++ [t] else keysOf st := by
  intro st
  induction st with
  | nil => simp [bumpStat, keysOf, dictGet?]
  | cons e rest ih =>
    obtain ⟨k, s⟩ := e
    by_cases hk : k = t
    · subst hk
      simp [bumpStat, keysOf, dictGet?]
    · have hifx : dictGet? ((k, s) :: rest) t = dictGet? rest t := by
        simp [dictGet?, hk]
      simp only [bumpStat, if_neg hk, hifx]
      have hcons : keysOf ((k, s) :: bumpStat rest t p) =
          k :: keysOf (bumpStat rest t p) := rfl
      by_cases hrest : dictGet? rest t = none
      · rw [if_pos hrest, hcons, ih, if_pos hrest]
        rfl
      · rw [if_neg hrest, hcons, ih, if_neg hrest]
        rfl

theorem bumpStat_keysNodup (t p : Nat) (st : List (Nat × RegionStat))
    (h : (keysOf st).Nodup) : (keysOf (bumpStat st t p)).Nodup := by
  rw [bumpStat_keys]
  by_cases hget : dictGet? st t = none
  · simp only [hget, if_pos rfl]
    have : t ∉ keysOf st := (dictGet?_none_iff_not_mem_keys st t).1 hget
    simpa [List.nodup_append] using ⟨h, this⟩
  · simpa [hget] using h

theorem spatialFold_keysNodup :
    ∀ (answers : List (Nat × Nat)) st,
      (keysOf st).Nodup → (keysOf (spatialFold answers st)).Nodup := by
  intro answers
  induction answers with
  | nil => intro st h; simpa [spatialFold] using h
  | cons a rest ih =>
    intro st h
    obtain ⟨t, p⟩ := a
    exact ih _ (bumpStat_keysNodup t p st h)

theorem dictGet?_of_mem_nodup :
    ∀ (st : List (Nat × RegionStat)), (keysOf st).Nodup →
      ∀ e ∈ st, dictGet? st e.1 = some e.2 := by
  intro st
  induction st with
  | nil => intro _ e he; simp at he
  | cons hd rest ih =>
    intro hnd e he
    obtain ⟨k, s⟩ := hd
    have hnds : k ∉ keysOf rest ∧ (keysOf rest).Nodup := by
      have : keysOf ((k, s) :: rest) = k :: keysOf rest := rfl
      rw [this] at hnd
      exact ⟨(List.nodup_cons.1 hnd).1, (List.nodup_cons.1 hnd).2⟩
    rcases List.mem_cons.1 he with rfl | hmem
    · simp [dictGet?]
    · have hk : k ≠ e.1 := by
        intro hh
        have hmk : e.1 ∈ keysOf rest := List.mem_map.2 ⟨e, hmem, rfl⟩
        rw [hh] at hnds
        exact hnds.1 hmk
      simp [dictGet?, hk, ih hnds.2 e hmem]

/-- **C8**: On every list of `(true_region, response_region)` pairs, the
spatial reducer's overall `mean_accuracy` is total correct over total
trials (trial-weighted, not the average of per-region accuracies), and
each region's recorded counters are its own trial and correct counts, with
accuracy equal to their quotient. -/
theorem spatial_mean_accuracy_trial_weighted (answers : List (Nat × Nat)) :
    (answers ≠ [] →
      (analyseSpatial answers).meanAccuracy =
        (answers.countP (fun tp => tp.1 == tp.2) : ℚ) / (answers.length : ℚ))
    ∧ ∀ e ∈ (analyseSpatial answers).regions,
        e.2.1.total = answers.countP (fun tp => tp.1 == e.1)
        ∧ e.2.1.correct = answers.countP (fun tp => tp.1 == e.1 && tp.2 == e.1)
        ∧ e.2.2 = (e.2.1.correct : ℚ) / (e.2.1.total : ℚ) := by
  constructor
  · intro hne
    have htot : statTotalSum (spatialFold answers []) = answers.length := by
      simpa [statTotalSum] using spatialFold_totalSum answers []
    have hcor : statCorrectSum (spatialFold answers []) =
        answers.countP (fun tp => tp.1 == tp.2) := by
      simpa [statCorrectSum] using spatialFold_correctSum answers []
    have hlen : 1 ≤ answers.length := by
      cases answers with
      | nil => exact absurd rfl hne
      | cons a l => simp
    simp only [analyseSpatial]
    rw [htot, hcor, Nat.max_eq_right hlen]
  · intro e he
    simp only [analyseSpatial, List.mem_map] at he
    obtain ⟨⟨r, s⟩, hmem, rfl⟩ := he
    have hnd : (keysOf (spatialFold answers [])).Nodup :=
      spatialFold_keysNodup answers [] (by simp [keysOf])
    have hget : dictGet? (spatialFold answers []) r = some s :=
      dictGet?_of_mem_nodup _ hnd ⟨r, s⟩ hmem
    have hks : keyStat (spatialFold answers []) r = s := by
      simp [keyStat, hget]
    have htot : s.total = answers.countP (fun tp => tp.1 == r) := by
      have := spatialFold_keyTotal answers [] r
      rw [hks] at this
      simpa [keyStat, dictGet?] using this
    have hcor : s.correct = answers.countP (fun tp => tp.1 == r && tp.2 == r) := by
      have := spatialFold_keyCorrect answers [] r
      rw [hks] at this
      simpa [keyStat, dictGet?] using this
    have hpos : 1 ≤ s.total := by
      by_contra hno
      have hz : s.total = 0 := by omega
      have hc0 : answers.countP (fun tp => tp.1 == r) = 0 := by omega
      have hnone := spatialFold_get_none answers [] r (by simp [dictGet?]) hc0
      rw [hnone] at hget
      exact Option.noConfusion hget
    refine ⟨htot, hcor, ?_⟩
    show (s.correct : ℚ) / ((max 1 s.total : ℕ) : ℚ) = (s.correct : ℚ) / (s.total : ℚ)
    rw [Nat.max_eq_right hpos]

/-- Witness for `spatial_mean_accuracy_trial_weighted` on
`[(1,1),(1,2),(2,2)]`: mean accuracy `2/3`, region 1 with 2 trials and 1
correct at accuracy `1/2`, region 2 with 1 trial and 1 correct. -/
theorem spatial_mean_accuracy_trial_weighted_witness :
    (analyseSpatial [(1, 1), (1, 2), (2, 2)]).meanAccuracy = 2/3
    ∧ (1, (⟨2, 1, [(1, 1), (2, 1)]⟩ : RegionStat), (1/2 : ℚ))
        ∈ (analyseSpatial [(1, 1), (1, 2), (2, 2)]).regions
    ∧ ((⟨2, 1, [(1, 1), (2, 1)]⟩ : RegionStat).correct : ℚ) /
        ((⟨2, 1, [(1, 1), (2, 1)]⟩ : RegionStat).total : ℚ) = 1/2 := by
  have h := spatial_mean_accuracy_trial_weighted [(1, 1), (1, 2), (2, 2)]
  have hm := h.1 (by decide)
  have hmem : (1, (⟨2, 1, [(1, 1), (2, 1)]⟩ : RegionStat), (1/2 : ℚ))
      ∈ (analyseSpatial [(1, 1), (1, 2), (2, 2)]).regions := by
    simp only [analyseSpatial, spatialFold, bumpStat, bumpDist, List.map_cons,
      List.map_nil, List.mem_cons]
    norm_num
  have hr := h.2 _ hmem
  refine ⟨hm.trans ?_, hmem, hr.2.2.symm⟩
  norm_num [List.countP_cons, List.countP_nil]

theorem filter_map_eq_filterMap {α β : Type} (l : List α) (p : α → Prop)
    [DecidablePred p] (f : α → β) :
    (l.filter (fun i => decide (p i))).map f
      = l.filterMap (fun i => if p i then some (f i) else none) := by
  induction l with
  | nil => simp
  | cons x xs ih => by_cases hx : p x <;> simp [hx, ih]

theorem find?_eq_head_filter {α : Type} (l : List α) (p : α → Bool) :
    l.find? p = (l.filter p).head? := by
  induction l with
  | nil => simp
  | cons x xs ih =>
    cases hx : p x
    · rw [List.find?_cons_of_neg _ (by simp [hx]),
        List.filter_cons_of_neg (by simp [hx]), ih]
    · rw [List.find?_cons_of_pos _ (by simp [hx]),
        List.filter_cons_of_pos (by simp [hx])]
      rfl

/-- **C7**: On every confusion matrix and intensity list, `_recommend`
follows the three-step reference algorithm of the spec: low-accuracy
categories (below 0.75) dominate, grouped into contiguous runs with
removal for singletons and a rounded-mean merge for longer runs; only when
every category passes is the first mutually confused pair (at least 0.10
each way, ascending index order) merged at the mean of its two
intensities; otherwise no correction is reported. -/
theorem recommend_follows_spec (cmN : List (List ℚ)) (acc : List ℚ)
    (pwmVals : List Int) :
    recommend cmN acc pwmVals = recommendSpec cmN acc pwmVals := by
  have hlow : (List.range acc.length).filterMap
      (fun i => if acc.getD i 0 < 3/4 then some (i + 1) else none) = badLevels acc := by
    rw [badLevels, filter_map_eq_filterMap]
  have hpred : (fun ij : Nat × Nat =>
        decide (1/10 ≤ (cmN.getD (ij.1 - 1) []).getD (ij.2 - 1) 0 ∧
          1/10 ≤ (cmN.getD (ij.2 - 1) []).getD (ij.1 - 1) 0))
      = (fun ij : Nat × Nat =>
        decide (1/10 ≤ (cmN.getD (ij.1 - 1) []).getD (ij.2 - 1) 0) &&
        decide (1/10 ≤ (cmN.getD (ij.2 - 1) []).getD (ij.1 - 1) 0)) := by
    funext ij
    exact Bool.decide_and _ _
  rw [recommend, recommendSpec, hlow]
  by_cases hb : badLevels acc = []
  · simp only [hb, List.isEmpty_nil, if_pos rfl, if_true]
    rw [find?_eq_head_filter, hpred]
    cases hfe : ((List.range cmN.length).flatMap (fun i =>
        ((List.range cmN.length).filter (fun j => decide (i < j))).map
          (fun j => (i + 1, j + 1)))).filter
      (fun ij => decide (1/10 ≤ (cmN.getD (ij.1 - 1) []).getD (ij.2 - 1) 0) &&
                 decide (1/10 ≤ (cmN.getD (ij.2 - 1) []).getD (ij.1 - 1) 0)) with
    | nil => simp
    | cons hd tl =>
      obtain ⟨i, j⟩ := hd
      simp
  · have hne : (badLevels acc).isEmpty = false := by
      cases hbl : badLevels acc with
      | nil => exact absurd hbl hb
      | cons a l => simp
    simp only [hne, Bool.false_eq_true, if_false, if_neg hb]

theorem count_flatten_replicate (q : Nat) (uses : List Nat) (u : Nat) :
    ((List.replicate q uses).flatten).count u = q * uses.count u := by
  induction q with
  | zero => simp
  | succ q ih =>
    simp only [List.replicate_succ, List.flatten_cons, List.count_append, ih,
      Nat.succ_mul]
    omega

/-- **C4**: For every nonempty region pool `uses` of size `U ≥ 1`, sample
count `S`, extras drawn without replacement (`r = S % U` distinct pool
members) and any shuffle of the built multiset: the presentation sequence
has length exactly `S`, draws only from the pool, presents every region
`q = S / U` times plus one extra presentation exactly for the drawn
extras, and exactly `r` regions receive the extra presentation. -/
theorem spatial_sequence_balanced (uses : List Nat) (S : Nat)
    (extras shuffled : List Nat)
    (hne : uses ≠ []) (hnd : uses.Nodup)
    (hlen : extras.length = S % uses.length)
    (hed : extras.Nodup) (hsub : ∀ x ∈ extras, x ∈ uses)
    (hperm : shuffled.Perm (spatialBaseSeq uses S extras)) :
    shuffled.length = S
    ∧ (∀ x ∈ shuffled, x ∈ uses)
    ∧ (∀ u ∈ uses, shuffled.count u =
        S / uses.length + (if u ∈ extras then 1 else 0))
    ∧ (uses.filter
        (fun u => decide (shuffled.count u = S / uses.length + 1))).length
        = S % uses.length := by
  have hU : 0 < uses.length := List.length_pos.2 hne
  have hflatlen : ((List.replicate (S / uses.length) uses).flatten).length =
      (S / uses.length) * uses.length := by
    simp [List.length_flatten, List.map_replicate, List.sum_replicate,
      Nat.smul_one_eq_cast]
  have hextras0 : extras.length = 0 → extras = [] := List.eq_nil_of_length_eq_zero
  have hcnt : ∀ u ∈ uses, shuffled.count u =
      S / uses.length + (if u ∈ extras then 1 else 0) := by
    intro u hu
    rw [hperm.count_eq, spatialBaseSeq, List.count_append,
      count_flatten_replicate, List.count_eq_one_of_mem hnd hu, Nat.mul_one]
    rcases Nat.eq_zero_or_pos (S % uses.length) with hr | hr
    · have : extras = [] := hextras0 (by omega)
      subst this
      simp [hr]
    · rw [if_pos hr]
      by_cases hmem : u ∈ extras
      · rw [List.count_eq_one_of_mem hed hmem, if_pos hmem]
      · rw [List.count_eq_zero_of_not_mem hmem, if_neg hmem]
  refine ⟨?_, ?_, hcnt, ?_⟩
  · rw [hperm.length_eq, spatialBaseSeq, List.length_append, hflatlen]
    have hdm : S / uses.length * uses.length + S % uses.length = S :=
      Nat.div_add_mod' S uses.length
    rcases Nat.eq_zero_or_pos (S % uses.length) with hr | hr
    · have : extras = [] := hextras0 (by omega)
      subst this
      simp only [hr, if_neg (lt_irrefl 0), List.length_nil]
      omega
    · rw [if_pos hr, hlen]
      omega
  · intro x hx
    have hx' := hperm.mem_iff.1 hx
    rw [spatialBaseSeq] at hx'
    rcases List.mem_append.1 hx' with hflat | hext
    · obtain ⟨l, hl, hxl⟩ := List.mem_flatten.1 hflat
      rw [List.eq_of_mem_replicate hl] at hxl
      exact hxl
    · rcases Nat.eq_zero_or_pos (S % uses.length) with hr | hr
      · rw [if_neg (by omega)] at hext
        simp at hext
      · rw [if_pos hr] at hext
        exact hsub x hext
  · have hfeq : uses.filter
        (fun u => decide (shuffled.count u = S / uses.length + 1))
        = uses.filter (fun u => decide (u ∈ extras)) := by
      apply List.filter_congr
      intro u hu
      rw [hcnt u hu]
      by_cases hmem : u ∈ extras
      · simp [hmem]
      · simp [hmem]
    rw [hfeq]
    have hpm : (uses.filter (fun u => decide (u ∈ extras))).Perm extras := by
      refine (List.perm_ext_iff_of_nodup (hnd.filter _) hed).2 ?_
      intro a
      simp only [List.mem_filter, decide_eq_true_eq]
      exact ⟨fun h => h.2, fun h => ⟨hsub a h, h⟩⟩
    rw [hpm.length_eq, hlen]

/-- Witness for `spatial_sequence_balanced`: with pool `[0,2,4,6]`
(`U = 4`), `S = 10` samples and the drawn extras `[2,6]`, the sequence has
length 10, the extra regions are presented `2 + 1` times, the others
twice, and exactly `10 % 4 = 2` regions carry an extra presentation. -/
theorem spatial_sequence_balanced_witness :
    (spatialBaseSeq [0, 2, 4, 6] 10 [2, 6]).length = 10
    ∧ (spatialBaseSeq [0, 2, 4, 6] 10 [2, 6]).count 2 = 3
    ∧ (spatialBaseSeq [0, 2, 4, 6] 10 [2, 6]).count 0 = 2
    ∧ (([0, 2, 4, 6] : List Nat).filter
        (fun u => decide ((spatialBaseSeq [0, 2, 4, 6] 10 [2, 6]).count u
          = 10 / 4 + 1))).length = 10 % 4 := by
  have h := spatial_sequence_balanced [0, 2, 4, 6] 10 [2, 6]
    (spatialBaseSeq [0, 2, 4, 6] 10 [2, 6]) (by decide) (by decide) (by decide)
    (by decide) (by decide) (List.Perm.refl _)
  refine ⟨h.1, ?_, ?_, h.2.2.2⟩
  · exact (h.2.2.1 2 (by decide)).trans (by decide)
  · exact (h.2.2.1 0 (by decide)).trans (by decide)

/-- **C5** counterexample: in single mode the worker enumerates motors
with step 1 but still divides by the configured `use_motors_step` in the
region formula, so with the dialog's default step 2 on motors 0..1 the two
distinct motors 0 and 1 are both recorded as region 1 — the mapping is not
injective, and a real run records two trials with the same `true_region`
for different presented motors. -/
theorem spatial_single_region_collision :
    0 ∈ spatialUses spatialHypsSingleStep2 SpatialMode.single
    ∧ 1 ∈ spatialUses spatialHypsSingleStep2 SpatialMode.single
    ∧ (0 : Nat) ≠ 1
    ∧ spatialTrueRegion spatialHypsSingleStep2 0
        = spatialTrueRegion spatialHypsSingleStep2 1
    ∧ (spatialRun spatialHypsSingleStep2 SpatialMode.single [0, 1]
        envAnswer1).emitted
        = some ⟨[(1, 1), (1, 1)], SpatialMode.single⟩ := by
  refine ⟨by decide, by decide, by decide, by decide, by decide⟩

/-- **C5** amended: in single mode each region is one motor, enumerated
with step 1 across the full range `[start, end]`, and the recorded region
index is `(motor - start) / use_motors_step + 1`; this mapping is
injective on the pool whenever `use_motors_step = 1` (distinct motors can
share a region index when the configured step exceeds 1). -/
theorem spatial_single_region_injective_step1 (h : SpatialHyps)
    (hstep : h.useMotorsStep = 1) :
    spatialUses h SpatialMode.single
      = pyRange h.numMotorStart (h.numMotorEnd + 1) 1
    ∧ (∀ m ∈ spatialUses h SpatialMode.single,
        spatialTrueRegion h m = m - h.numMotorStart + 1)
    ∧ ∀ m ∈ spatialUses h SpatialMode.single,
        ∀ m2 ∈ spatialUses h SpatialMode.single,
        spatialTrueRegion h m = spatialTrueRegion h m2 → m = m2 := by
  have hge : ∀ m ∈ spatialUses h SpatialMode.single, h.numMotorStart ≤ m := by
    intro m hm
    simp only [spatialUses, pyRange, if_neg (Nat.one_ne_zero), List.mem_map,
      List.mem_range] at hm
    obtain ⟨i, _, rfl⟩ := hm
    omega
  refine ⟨rfl, ?_, ?_⟩
  · intro m _
    simp [spatialTrueRegion, hstep]
  · intro m hm m2 hm2 heq
    have h1 := hge m hm
    have h2 := hge m2 hm2
    simp only [spatialTrueRegion, hstep, Nat.div_one] at heq
    omega

/-- Witness for `spatial_single_region_injective_step1`: with step 1 over
motors 0..5, motor 4 belongs to the pool and is recorded as region 5. -/
theorem spatial_single_region_injective_step1_witness :
    spatialTrueRegion spatialHypsSingleStep1 4 = 5
    ∧ 4 ∈ spatialUses spatialHypsSingleStep1 SpatialMode.single := by
  have h := spatial_single_region_injective_step1 spatialHypsSingleStep1 rfl
  exact ⟨(h.2.1 4 (by decide)).trans (by decide), by decide⟩

theorem mem_of_mem_listMul {x : Int} {l : List Int} {k : Nat}
    (h : x ∈ listMul l k) : x ∈ l := by
  rw [listMul] at h
  obtain ⟨c, hc, hxc⟩ := List.mem_flatten.1 h
  rwa [List.eq_of_mem_replicate hc] at hxc

/-- `list.index(v) + 1` on a strictly sorted list containing `v` is the
1-based rank of `v` in sorted order: one plus the number of smaller
entries. -/
theorem pyIndex_sorted_rank (l : List Int) (v : Int) (hs : l.Sorted (· < ·))
    (hv : v ∈ l) :
    pyIndex l v = (l.filter (fun w => decide (w < v))).length := by
  induction l with
  | nil => simp at hv
  | cons x xs ih =>
    have hpw := List.sorted_cons.1 hs
    by_cases hxv : x = v
    · subst hxv
      have hnone : xs.filter (fun w => decide (w < x)) = [] := by
        refine List.filter_eq_nil.2 ?_
        intro w hw
        simp [not_lt.2 (le_of_lt (hpw.1 w hw))]
      simp only [pyIndex, if_pos rfl]
      rw [List.filter_cons_of_neg (by simp), hnone]
      rfl
    · have hvxs : v ∈ xs := by
        rcases List.mem_cons.1 hv with hh | hh
        · exact absurd hh.symm hxv
        · exact hh
      have hxlt : x < v := hpw.1 v hvxs
      simp only [pyIndex, if_neg hxv]
      rw [List.filter_cons_of_pos (by simp [hxlt]), ih hpw.2 hvxs,
        List.length_cons]

theorem pmpwmMotorLoop_trial_at (n : Nat) (pv : List Int) (motor : Nat)
    (env : Nat → PmpwmWaitObs) :
    ∀ (seq : List Int) (j k : Nat), k < seq.length →
      (∀ i, i ≤ k → ∃ a, env (j + i) = PmpwmWaitObs.answer a) →
      (pmpwmMotorLoop n pv motor env seq j).trials[k]? =
        some (pyIndex pv (seq.getD k 0) + 1, pmAnsOf (env (j + k))) := by
  intro seq
  induction seq with
  | nil => intro j k hk; simp at hk
  | cons v vs ih =>
    intro j k hk hans
    obtain ⟨a0, ha0⟩ := hans 0 (Nat.zero_le k)
    rw [Nat.add_zero] at ha0
    cases k with
    | zero =>
      simp [pmpwmMotorLoop, ha0, pmAnsOf]
    | succ k =>
      have hk' : k < vs.length := Nat.lt_of_succ_lt_succ hk
      have hans' : ∀ i, i ≤ k → ∃ a, env (j + 1 + i) = PmpwmWaitObs.answer a := by
        intro i hi
        have := hans (i + 1) (Nat.succ_le_succ hi)
        have e : j + (i + 1) = j + 1 + i := by omega
        rwa [e] at this
      have := ih (j + 1) k hk' hans'
      have e : j + 1 + k = j + (k + 1) := by omega
      rw [e] at this
      simpa [pmpwmMotorLoop, ha0] using this

/-- **C6**: For every presentation of the intensity-discrimination test,
the recorded true level is the 1-based rank of the presented PWM intensity
within the sorted configured schedule.  Every configured schedule is
strictly sorted (the default profile is, and the PM-PWM dialog normalises
operator input with `sorted(set(...))`), so `pwm_values.index(pwm) + 1`
coincides with that rank: one plus the number of schedule entries below
the presented intensity. -/
theorem pmpwm_true_level_sorted_rank (h : PmpwmHyps) (motor : Nat)
    (seq : List Int) (env : Nat → PmpwmWaitObs) (k : Nat)
    (hsorted : h.pwmValues.Sorted (· < ·))
    (hperm : seq.Perm (listMul h.pwmValues h.repeats))
    (hk : k < seq.length)
    (hans : ∀ i, i ≤ k → ∃ a, env i = PmpwmWaitObs.answer a) :
    (pmpwmMotorLoop h.nMotors h.pwmValues motor env seq 0).trials[k]? =
      some ((h.pwmValues.filter (fun w => decide (w < seq.getD k 0))).length + 1,
        pmAnsOf (env k)) := by
  have hmemseq : seq.getD k 0 ∈ seq := by
    rw [List.getD_eq_getElem?_getD, List.getElem?_eq_getElem hk, Option.getD_some]
    exact List.getElem_mem hk
  have hmem : seq.getD k 0 ∈ h.pwmValues :=
    mem_of_mem_listMul (hperm.mem_iff.1 hmemseq)
  have := pmpwmMotorLoop_trial_at h.nMotors h.pwmValues motor env seq 0 k hk
    (by simpa using hans)
  rw [this, pyIndex_sorted_rank h.pwmValues _ hsorted hmem]
  simp

/-- Witness for `pmpwm_true_level_sorted_rank`: schedule `[14, 22, 36]`,
shuffled presentation `[22, 36, 14]`; the first presentation (intensity
22) is recorded with true level 2, its rank in the sorted schedule. -/
theorem pmpwm_true_level_sorted_rank_witness :
    (pmpwmMotorLoop 10 [14, 22, 36] 0 pmEnvAnswer1 [22, 36, 14] 0).trials[0]?
      = some (2, 1) := by
  have h := pmpwm_true_level_sorted_rank pmpwmHypsSmall 0 [22, 36, 14]
    pmEnvAnswer1 0 (by decide) (by decide) (by decide) (fun i _ => ⟨1, rfl⟩)
  exact h.trans (by decide)

theorem dictGet?_dictSet_ne {α : Type} (k m : Nat) (v : α) (hne : m ≠ k) :
    ∀ d, dictGet? (dictSet d k v) m = dictGet? d m := by
  intro d
  induction d with
  | nil => simp [dictSet, dictGet?, Ne.symm hne]
  | cons e rest ih =>
    obtain ⟨k0, v0⟩ := e
    by_cases hk : k0 = k
    · subst hk
      simp [dictSet, dictGet?, Ne.symm hne]
    · by_cases hm : k0 = m <;> simp [dictSet, dictGet?, hk, hm, hne, ih]

theorem dictGet?_dictSet_eq {α : Type} (k : Nat) (v : α) :
    ∀ d, dictGet? (dictSet d k v) k = some v := by
  intro d
  induction d with
  | nil => simp [dictSet, dictGet?]
  | cons e rest ih =>
    obtain ⟨k0, v0⟩ := e
    by_cases hk : k0 = k <;> simp [dictSet, dictGet?, hk, ih]

theorem dictGet?_dictPop_ne {α : Type} (k m : Nat) (hne : m ≠ k) :
    ∀ d : List (Nat × α), dictGet? (dictPop d k) m = dictGet? d m := by
  intro d
  induction d with
  | nil => simp [dictPop, dictGet?]
  | cons e rest ih =>
    obtain ⟨k0, v0⟩ := e
    by_cases hk : k0 = k
    · subst hk
      simp [dictPop, dictGet?, Ne.symm hne]
    · by_cases hm : k0 = m <;> simp [dictPop, dictGet?, hk, hm, hne, ih]

theorem dictGet?_eq_none_of_not_mem {α : Type} :
    ∀ (d : List (Nat × α)) k, k ∉ d.map (fun e => e.1) → dictGet? d k = none := by
  intro d
  induction d with
  | nil => intro k _; simp [dictGet?]
  | cons e rest ih =>
    intro k hk
    obtain ⟨k0, v0⟩ := e
    simp only [List.map_cons, List.mem_cons, not_or] at hk
    have hners : ¬k0 = k := fun hh => hk.1 hh.symm
    simp [dictGet?, hners, ih k hk.2]

theorem dictGet?_dictPop_self {α : Type} :
    ∀ (d : List (Nat × α)) k, (d.map (fun e => e.1)).Nodup →
      dictGet? (dictPop d k) k = none := by
  intro d
  induction d with
  | nil => intro k _; simp [dictPop, dictGet?]
  | cons e rest ih =>
    intro k hnd
    obtain ⟨k0, v0⟩ := e
    rw [List.map_cons, List.nodup_cons] at hnd
    by_cases hk : k0 = k
    · subst hk
      simp only [dictPop, if_pos rfl]
      exact dictGet?_eq_none_of_not_mem rest k0 hnd.1
    · simp [dictPop, dictGet?, hk, ih k hnd.2]

/-- **C9**: Re-running a previously completed motor of the discrimination
test discards exactly that motor's prior Trials (its slot is popped before
the fresh worker is launched on `[motor]` alone), and after the rewrite
every other motor keeps its recorded Trials, its completion status, and
its per-motor-accuracy contribution. -/
theorem pmpwm_rewrite_motor_isolated (h : PmpwmHyps) (st : PmpwmGuiState)
    (motor : Nat) (seqM : List Int) (env : Nat → PmpwmWaitObs)
    (hnd : (st.resultsPmpwm.map (fun e => e.1)).Nodup) :
    dictGet? (runPmpwmForMotor st motor).resultsPmpwm motor = none
    ∧ ∀ m, m ≠ motor →
        dictGet? (rewriteMotor h st motor seqM env).resultsPmpwm m
          = dictGet? st.resultsPmpwm m
        ∧ (m ∈ (rewriteMotor h st motor seqM env).motorsCompleted
            ↔ m ∈ st.motorsCompleted)
        ∧ motorAccEntry (rewriteMotor h st motor seqM env).resultsPmpwm m
          = motorAccEntry st.resultsPmpwm m := by
  constructor
  · exact dictGet?_dictPop_self st.resultsPmpwm motor hnd
  · intro m hm
    have hres : dictGet? (rewriteMotor h st motor seqM env).resultsPmpwm m
        = dictGet? st.resultsPmpwm m := by
      rw [rewriteMotor]
      split
      · show dictGet? (dictSet (dictPop st.resultsPmpwm motor) motor _) m = _
        rw [dictGet?_dictSet_ne motor m _ hm, dictGet?_dictPop_ne motor m hm]
      · exact dictGet?_dictPop_ne motor m hm st.resultsPmpwm
    have hcomp : m ∈ (rewriteMotor h st motor seqM env).motorsCompleted
        ↔ m ∈ st.motorsCompleted := by
      rw [rewriteMotor]
      split
      · show m ∈ setAdd (setDiscard st.motorsCompleted motor) motor ↔ _
        rw [setAdd]
        by_cases hin : motor ∈ setDiscard st.motorsCompleted motor
        · rw [if_pos hin]
          simp [setDiscard, List.mem_filter, hm]
        · rw [if_neg hin]
          simp [setDiscard, List.mem_filter, hm]
      · show m ∈ setDiscard st.motorsCompleted motor ↔ _
        simp [setDiscard, List.mem_filter, hm]
    refine ⟨hres, hcomp, ?_⟩
    rw [motorAccEntry, motorAccEntry, hres]

/-- Witness for `pmpwm_rewrite_motor_isolated`: rewriting motor 0 of a
state where motors 0 and 2 are complete pops motor 0's slot, while motor
2's trials, completion, and accuracy entry are untouched. -/
theorem pmpwm_rewrite_motor_isolated_witness :
    dictGet? (runPmpwmForMotor guiStateTwoDone 0).resultsPmpwm 0 = none
    ∧ dictGet? (rewriteMotor pmpwmHypsSmall guiStateTwoDone 0 [36, 14, 22]
        pmEnvAnswer1).resultsPmpwm 2 = some [(2, 1)]
    ∧ (2 ∈ (rewriteMotor pmpwmHypsSmall guiStateTwoDone 0 [36, 14, 22]
        pmEnvAnswer1).motorsCompleted)
    ∧ motorAccEntry (rewriteMotor pmpwmHypsSmall guiStateTwoDone 0 [36, 14, 22]
        pmEnvAnswer1).resultsPmpwm 2 = motorAccEntry guiStateTwoDone.resultsPmpwm 2 := by
  have h := pmpwm_rewrite_motor_isolated pmpwmHypsSmall guiStateTwoDone 0
    [36, 14, 22] pmEnvAnswer1 (by decide)
  obtain ⟨ha, hb⟩ := h
  obtain ⟨h1, h2, h3⟩ := hb 2 (by decide)
  exact ⟨ha, h1.trans (by decide), h2.2 (by decide), h3⟩

theorem runTrace_append (n : Nat) (t1 t2 : List Act) (st : List Int) :
    runTrace n (t1 ++ t2) st = runTrace n t2 (runTrace n t1 st) := by
  simp [runTrace, List.foldl_append]

theorem probe_no_indicator (h : MolsHyps) (motorIdx : Nat) (positive : String)
    (env : Nat → StepObs) :
    ∀ (seq : List Int) (off : Nat),
      Act.indicator ∉ (probe h motorIdx positive env seq off).1 := by
  intro seq
  induction seq with
  | nil => intro off; simp [probe]
  | cons v vs ih =>
    intro off
    simp only [probe]
    cases hstop : (env off).stopBefore
    · cases hwait : (env off).wait with
      | cancelled => simp
      | answer a =>
        by_cases ha : a = positive
        · simp [ha]
        · simpa [ha] using ih (off + 1)
    · simp

theorem probe_none_resets (h : MolsHyps) (motorIdx : Nat) (positive : String)
    (env : Nat → StepObs) (n : Nat) :
    ∀ (seq : List Int) (off : Nat) (st : List Int),
      (probe h motorIdx positive env seq off).2 = none →
      runTrace n (probe h motorIdx positive env seq off).1 st
        = List.replicate n 0 := by
  intro seq
  induction seq with
  | nil => intro off st hnone; simp [probe] at hnone
  | cons v vs ih =>
    intro off st hnone
    cases hstop : (env off).stopBefore
    · cases hwait : (env off).wait with
      | cancelled => simp [probe, hstop, hwait, runTrace, applyAct]
      | answer a =>
        by_cases ha : a = positive
        · simp [probe, hstop, hwait, ha] at hnone
        · simp only [probe, hstop, hwait, ha, Bool.false_eq_true, if_false] at hnone ⊢
          have step : runTrace n
              (Act.set (singleOn h.nMotors motorIdx v) :: Act.reset ::
                (probe h motorIdx positive env vs (off + 1)).1) st
              = runTrace n (probe h motorIdx positive env vs (off + 1)).1
                  (List.replicate n 0) := rfl
          rw [step]
          exact ih (off + 1) (List.replicate n 0) hnone
    · simp [probe, hstop, runTrace, applyAct]

theorem molsPass_no_indicator (h : MolsHyps) (pe : MolsPassObs) (m : Nat)
    (d : Bool) : Act.indicator ∉ (molsPass h pe m d).1 :=
  probe_no_indicator h m (molsPassPositive d) pe.obs (molsPassSeq h pe d) 0

theorem molsPass_none_resets (h : MolsHyps) (pe : MolsPassObs) (m : Nat)
    (d : Bool) (n : Nat) (st : List Int)
    (hnone : (molsPass h pe m d).2 = none) :
    runTrace n (molsPass h pe m d).1 st = List.replicate n 0 :=
  probe_none_resets h m (molsPassPositive d) pe.obs n (molsPassSeq h pe d) 0 st hnone

theorem probe_cancel_at (h : MolsHyps) (motorIdx : Nat) (positive : String)
    (env : Nat → StepObs) :
    ∀ (seq : List Int) (off k : Nat), k < seq.length →
      (∀ i, i ≤ k → (env (off + i)).stopBefore = false) →
      (∀ i, i < k → waitIsOtherAnswer (env (off + i)).wait positive = true) →
      (env (off + k)).wait = WaitOutcome.cancelled →
      (probe h motorIdx positive env seq off).2 = none := by
  intro seq
  induction seq with
  | nil => intro off k hk; simp at hk
  | cons v vs ih =>
    intro off k hk hstops hothers hcan
    cases k with
    | zero =>
      have h0 : (env off).stopBefore = false := by simpa using hstops 0 (le_refl 0)
      have hc : (env off).wait = WaitOutcome.cancelled := by simpa using hcan
      simp [probe, h0, hc]
    | succ k =>
      have h0 : (env off).stopBefore = false := by
        simpa using hstops 0 (Nat.zero_le _)
      have hother0 : waitIsOtherAnswer (env off).wait positive = true := by
        simpa using hothers 0 (Nat.succ_pos k)
      cases hwait : (env off).wait with
      | cancelled =>
        rw [hwait] at hother0
        simp [waitIsOtherAnswer] at hother0
      | answer a =>
        rw [hwait] at hother0
        have ha : ¬(a = positive) := by
          simpa [waitIsOtherAnswer] using hother0
        have hk' : k < vs.length := Nat.lt_of_succ_lt_succ hk
        have hstops' : ∀ i, i ≤ k → (env (off + 1 + i)).stopBefore = false := by
          intro i hi
          have hx := hstops (i + 1) (Nat.succ_le_succ hi)
          have e : off + (i + 1) = off + 1 + i := by omega
          rwa [e] at hx
        have hothers' : ∀ i, i < k →
            waitIsOtherAnswer (env (off + 1 + i)).wait positive = true := by
          intro i hi
          have hx := hothers (i + 1) (Nat.succ_lt_succ hi)
          have e : off + (i + 1) = off + 1 + i := by omega
          rwa [e] at hx
        have hcan' : (env (off + 1 + k)).wait = WaitOutcome.cancelled := by
          have e : off + (k + 1) = off + 1 + k := by omega
          rwa [e] at hcan
        have := ih (off + 1) k hk' hstops' hothers' hcan'
        simpa [probe, h0, hwait, ha] using this

theorem molsRunAux_cancelled_iff_no_emit (h : MolsHyps) (env : Nat → MolsPassObs) :
    ∀ (passes : List (Nat × Bool)) (p : Nat) (res : List (Nat × List Int)),
      (molsRunAux h env passes p res).exit = ExitKind.cancelled ↔
        (molsRunAux h env passes p res).emitted = none := by
  intro passes
  induction passes with
  | nil => intro p res; simp [molsRunAux]
  | cons pd rest ih =>
    intro p res
    obtain ⟨m, d⟩ := pd
    cases hstop : (env p).stopAtHead
    · cases hpr : (molsPass h (env p) m d).2 with
      | none => simp [molsRunAux, hstop, hpr]
      | some pwm =>
        simpa [molsRunAux, hstop, hpr] using ih (p + 1) (addResult res m pwm)
    · simp [molsRunAux, hstop]

theorem addResult_size (m : Nat) (v : Int) :
    ∀ res, resultsSize (addResult res m v) = resultsSize res + 1 := by
  intro res
  induction res with
  | nil => simp [addResult, resultsSize]
  | cons e rest ih =>
    obtain ⟨k, l⟩ := e
    by_cases hk : k = m
    · simp only [addResult, if_pos hk, resultsSize, List.map_cons, List.sum_cons,
        List.length_append, List.length_cons, List.length_nil]
      omega
    · simp only [addResult, if_neg hk, resultsSize, List.map_cons, List.sum_cons]
      have hx := ih
      simp only [resultsSize] at hx
      omega

/-- If the first `pre.length` passes complete and the next pass's probe is
cancelled, the whole MOLs run exits `Cancelled` without emitting
`finished`, records exactly the `pre.length` completed thresholds, fires
exactly `pre.length` pass-end indicators (none for the cancelled pass),
and leaves every motor at zero. -/
theorem molsRunAux_cancel_after (h : MolsHyps) (env : Nat → MolsPassObs)
    (n : Nat) :
    ∀ (pre : List (Nat × Bool)) (m : Nat) (d : Bool) (post : List (Nat × Bool))
      (p0 : Nat) (res : List (Nat × List Int)),
      passesCleanB h env pre p0 = true →
      (env (p0 + pre.length)).stopAtHead = false →
      (molsPass h (env (p0 + pre.length)) m d).2 = none →
      (molsRunAux h env (pre ++ (m, d) :: post) p0 res).exit = ExitKind.cancelled
      ∧ (molsRunAux h env (pre ++ (m, d) :: post) p0 res).emitted = none
      ∧ resultsSize (molsRunAux h env (pre ++ (m, d) :: post) p0 res).results
          = resultsSize res + pre.length
      ∧ (molsRunAux h env (pre ++ (m, d) :: post) p0 res).trace.count Act.indicator
          = pre.length
      ∧ runTrace n (molsRunAux h env (pre ++ (m, d) :: post) p0 res).trace
          (List.replicate n 0) = List.replicate n 0 := by
  intro pre
  induction pre with
  | nil =>
    intro m d post p0 res _ hstop hnone
    simp only [List.length_nil, Nat.add_zero] at hstop hnone
    have hs : (env p0).stopAtHead = false := hstop
    refine ⟨?_, ?_, ?_, ?_, ?_⟩ <;>
      simp [molsRunAux, hs, hnone, List.count_eq_zero_of_not_mem
        (molsPass_no_indicator h (env p0) m d),
        molsPass_none_resets h (env p0) m d n _ hnone]
  | cons pd pre' ih =>
    intro m d post p0 res hclean hstop hnone
    obtain ⟨m0, d0⟩ := pd
    have hcleans : (env p0).stopAtHead = false
        ∧ (molsPass h (env p0) m0 d0).2.isSome = true
        ∧ passesCleanB h env pre' (p0 + 1) = true := by
      simp only [passesCleanB, Bool.and_eq_true, Bool.not_eq_eq_eq_not,
        Bool.not_true] at hclean
      exact ⟨by simpa using hclean.1.1, hclean.1.2, hclean.2⟩
    obtain ⟨pwm, hpwm⟩ := Option.isSome_iff_exists.1 hcleans.2.1
    have hstop' : (env (p0 + 1 + pre'.length)).stopAtHead = false := by
      rw [List.length_cons] at hstop
      have e : p0 + (pre'.length + 1) = p0 + 1 + pre'.length := by omega
      rwa [e] at hstop
    have hnone' : (molsPass h (env (p0 + 1 + pre'.length)) m d).2 = none := by
      rw [List.length_cons] at hnone
      have e : p0 + (pre'.length + 1) = p0 + 1 + pre'.length := by omega
      rwa [e] at hnone
    have hrec := ih m d post (p0 + 1) (addResult res m0 pwm) hcleans.2.2
      hstop' hnone'
    have hunfold : molsRunAux h env (((m0, d0) :: pre') ++ (m, d) :: post) p0 res
        = { molsRunAux h env (pre' ++ (m, d) :: post) (p0 + 1)
              (addResult res m0 pwm) with
            trace := (molsPass h (env p0) m0 d0).1 ++ Act.indicator ::
              (molsRunAux h env (pre' ++ (m, d) :: post) (p0 + 1)
                (addResult res m0 pwm)).trace } := by
      simp [molsRunAux, hcleans.1, hpwm]
    rw [hunfold]
    refine ⟨hrec.1, hrec.2.1, ?_, ?_, ?_⟩
    · simp only [List.length_cons]
      rw [hrec.2.2.1, addResult_size]
      omega
    · rw [List.count_append, List.count_cons]
      rw [List.count_eq_zero_of_not_mem (molsPass_no_indicator h (env p0) m0 d0)]
      rw [hrec.2.2.2.1]
      simp [List.length_cons]
    · rw [runTrace_append]
      have hcons : ∀ (tr : List Act) (st : List Int),
          runTrace n (Act.indicator :: tr) st
            = runTrace n tr (List.replicate n 0) := fun tr st => rfl
      rw [hcons]
      exact hrec.2.2.2.2

theorem spatialLoop_no_indicator (hS : SpatialHyps) (mode : SpatialMode)
    (env : Nat → SpatialStepObs) :
    ∀ (seq : List Nat) (idx : Nat),
      Act.indicator ∉ (spatialLoop hS mode env seq idx).trace := by
  intro seq
  induction seq with
  | nil => intro idx; simp [spatialLoop]
  | cons m0 rest ih =>
    intro idx
    cases hstop : (env idx).stopAtHead
    · cases hwait : (env idx).wait with
      | cancelled => cases mode <;> simp [spatialLoop, hstop, hwait]
      | answer r =>
        cases mode <;> simp [spatialLoop, hstop, hwait] <;> exact ih (idx + 1)
    · simp [spatialLoop, hstop]

theorem spatialPrefixAnswers_length (hS : SpatialHyps)
    (env : Nat → SpatialStepObs) :
    ∀ (seq : List Nat) (idx k : Nat), k ≤ seq.length →
      (spatialPrefixAnswers hS env seq idx k).length = k := by
  intro seq
  induction seq with
  | nil =>
    intro idx k hk
    have : k = 0 := by simpa using hk
    subst this
    simp [spatialPrefixAnswers]
  | cons m0 rest ih =>
    intro idx k hk
    cases k with
    | zero => simp [spatialPrefixAnswers]
    | succ k =>
      have hk' : k ≤ rest.length := by simpa using hk
      simp [spatialPrefixAnswers, ih (idx + 1) k hk']

/-- If cancellation arrives during the response wait of presentation `k`,
the spatial loop exits `Cancelled` with exactly the `k` previously
completed trials recorded (nothing for the in-flight stimulus) and every
motor back at zero. -/
theorem spatialLoop_cancel_at (hS : SpatialHyps) (mode : SpatialMode)
    (env : Nat → SpatialStepObs) (n : Nat) :
    ∀ (seq : List Nat) (idx k : Nat), k < seq.length →
      (∀ i, i ≤ k → (env (idx + i)).stopAtHead = false) →
      (∀ i, i < k → spatialIsAnswer (env (idx + i)).wait = true) →
      (env (idx + k)).wait = SpatialWaitObs.cancelled →
      (spatialLoop hS mode env seq idx).exit = ExitKind.cancelled
      ∧ (spatialLoop hS mode env seq idx).answers
          = spatialPrefixAnswers hS env seq idx k
      ∧ ∀ st : List Int,
          runTrace n (spatialLoop hS mode env seq idx).trace st
            = List.replicate n 0 := by
  intro seq
  induction seq with
  | nil => intro idx k hk; exact absurd hk (by simp)
  | cons m0 rest ih =>
    intro idx k hk hstops hans hcan
    cases k with
    | zero =>
      have h0 : (env idx).stopAtHead = false := by simpa using hstops 0 (le_refl 0)
      have hc : (env idx).wait = SpatialWaitObs.cancelled := by simpa using hcan
      refine ⟨?_, ?_, ?_⟩
      · simp [spatialLoop, h0, hc]
      · cases hkk : rest.length <;> simp [spatialLoop, h0, hc, spatialPrefixAnswers]
      · intro st
        cases mode <;> simp [spatialLoop, h0, hc, runTrace, applyAct]
    | succ k =>
      have h0 : (env idx).stopAtHead = false := by
        simpa using hstops 0 (Nat.zero_le _)
      have hisans : spatialIsAnswer (env idx).wait = true := by
        simpa using hans 0 (Nat.succ_pos k)
      cases hwait : (env idx).wait with
      | cancelled => rw [hwait] at hisans; simp [spatialIsAnswer] at hisans
      | answer r =>
        have hk' : k < rest.length := Nat.lt_of_succ_lt_succ hk
        have hstops' : ∀ i, i ≤ k → (env (idx + 1 + i)).stopAtHead = false := by
          intro i hi
          have hx := hstops (i + 1) (Nat.succ_le_succ hi)
          have e : idx + (i + 1) = idx + 1 + i := by omega
          rwa [e] at hx
        have hans' : ∀ i, i < k → spatialIsAnswer (env (idx + 1 + i)).wait = true := by
          intro i hi
          have hx := hans (i + 1) (Nat.succ_lt_succ hi)
          have e : idx + (i + 1) = idx + 1 + i := by omega
          rwa [e] at hx
        have hcan' : (env (idx + 1 + k)).wait = SpatialWaitObs.cancelled := by
          have e : idx + (k + 1) = idx + 1 + k := by omega
          rwa [e] at hcan
        have hrec := ih (idx + 1) k hk' hstops' hans' hcan'
        refine ⟨?_, ?_, ?_⟩
        · simpa [spatialLoop, h0, hwait] using hrec.1
        · simp only [spatialLoop, h0, hwait, spatialPrefixAnswers, hrec.2.1]
          simp [hwait, spatialAnsOf]
        · intro st
          have htr : (spatialLoop hS mode env (m0 :: rest) idx).trace
              = ((match mode with
                  | SpatialMode.pairs => [m0, m0 + 1]
                  | SpatialMode.single => [m0]).map
                    (fun mot => Act.set (singleOn hS.nMotors mot hS.spatialPwm))
                  ++ [Act.reset]) ++ (spatialLoop hS mode env rest (idx + 1)).trace := by
            simp [spatialLoop, h0, hwait]
          rw [htr, runTrace_append]
          exact hrec.2.2 _

theorem pmpwmMotorLoop_no_indicator (n : Nat) (pv : List Int) (motor : Nat)
    (env : Nat → PmpwmWaitObs) :
    ∀ (seq : List Int) (j : Nat),
      Act.indicator ∉ (pmpwmMotorLoop n pv motor env seq j).trace := by
  intro seq
  induction seq with
  | nil => intro j; simp [pmpwmMotorLoop]
  | cons v vs ih =>
    intro j
    cases henv : env j with
    | cancelled => simp [pmpwmMotorLoop, henv]
    | answer a =>
      simp only [pmpwmMotorLoop, henv, List.cons_append, List.nil_append,
        List.mem_cons, not_or]
      exact ⟨by simp, by simp, ih (j + 1)⟩

theorem pmpwmPrefixTrials_length (pv : List Int) (env : Nat → PmpwmWaitObs) :
    ∀ (seq : List Int) (j k : Nat), k ≤ seq.length →
      (pmpwmPrefixTrials pv env seq j k).length = k := by
  intro seq
  induction seq with
  | nil =>
    intro j k hk
    have : k = 0 := by simpa using hk
    subst this
    simp [pmpwmPrefixTrials]
  | cons v vs ih =>
    intro j k hk
    cases k with
    | zero => simp [pmpwmPrefixTrials]
    | succ k =>
      have hk' : k ≤ vs.length := by simpa using hk
      simp [pmpwmPrefixTrials, ih (j + 1) k hk']

theorem pmpwmMotorLoop_complete (n : Nat) (pv : List Int) (motor : Nat)
    (env : Nat → PmpwmWaitObs) :
    ∀ (seq : List Int) (j : Nat),
      (∀ i, i < seq.length → pmIsAnswer (env (j + i)) = true) →
      (pmpwmMotorLoop n pv motor env seq j).stopped = false
      ∧ (pmpwmMotorLoop n pv motor env seq j).trials
          = pmpwmPrefixTrials pv env seq j seq.length := by
  intro seq
  induction seq with
  | nil => intro j _; simp [pmpwmMotorLoop, pmpwmPrefixTrials]
  | cons v vs ih =>
    intro j hans
    have h0 : pmIsAnswer (env j) = true := by simpa using hans 0 (by simp)
    cases henv : env j with
    | cancelled => rw [henv] at h0; simp [pmIsAnswer] at h0
    | answer a =>
      have hans' : ∀ i, i < vs.length → pmIsAnswer (env (j + 1 + i)) = true := by
        intro i hi
        have hx := hans (i + 1) (by simpa using Nat.succ_lt_succ hi)
        have e : j + (i + 1) = j + 1 + i := by omega
        rwa [e] at hx
      have hrec := ih (j + 1) hans'
      refine ⟨by simpa [pmpwmMotorLoop, henv] using hrec.1, ?_⟩
      simp only [pmpwmMotorLoop, henv, List.length_cons, pmpwmPrefixTrials,
        hrec.2, pmAnsOf]

theorem pmpwmMotorLoop_cancel_at (n : Nat) (pv : List Int) (motor : Nat)
    (env : Nat → PmpwmWaitObs) :
    ∀ (seq : List Int) (j k : Nat), k < seq.length →
      (∀ i, i < k → pmIsAnswer (env (j + i)) = true) →
      env (j + k) = PmpwmWaitObs.cancelled →
      (pmpwmMotorLoop n pv motor env seq j).stopped = true
      ∧ (pmpwmMotorLoop n pv motor env seq j).trials
          = pmpwmPrefixTrials pv env seq j k
      ∧ ∀ st : List Int,
          runTrace n (pmpwmMotorLoop n pv motor env seq j).trace st
            = List.replicate n 0 := by
  intro seq
  induction seq with
  | nil => intro j k hk; exact absurd hk (by simp)
  | cons v vs ih =>
    intro j k hk hans hcan
    cases k with
    | zero =>
      have hc : env j = PmpwmWaitObs.cancelled := by simpa using hcan
      refine ⟨by simp [pmpwmMotorLoop, hc], by simp [pmpwmMotorLoop, hc,
        pmpwmPrefixTrials], ?_⟩
      intro st
      simp [pmpwmMotorLoop, hc, runTrace, applyAct]
    | succ k =>
      have h0 : pmIsAnswer (env j) = true := by
        simpa using hans 0 (Nat.succ_pos k)
      cases henv : env j with
      | cancelled => rw [henv] at h0; simp [pmIsAnswer] at h0
      | answer a =>
        have hk' : k < vs.length := Nat.lt_of_succ_lt_succ hk
        have hans' : ∀ i, i < k → pmIsAnswer (env (j + 1 + i)) = true := by
          intro i hi
          have hx := hans (i + 1) (Nat.succ_lt_succ hi)
          have e : j + (i + 1) = j + 1 + i := by omega
          rwa [e] at hx
        have hcan' : env (j + 1 + k) = PmpwmWaitObs.cancelled := by
          have e : j + (k + 1) = j + 1 + k := by omega
          rwa [e] at hcan
        have hrec := ih (j + 1) k hk' hans' hcan'
        refine ⟨by simpa [pmpwmMotorLoop, henv] using hrec.1, ?_, ?_⟩
        · simp only [pmpwmMotorLoop, henv, pmpwmPrefixTrials, hrec.2.1, pmAnsOf]
        · intro st
          have htr : (pmpwmMotorLoop n pv motor env (v :: vs) j).trace
              = Act.set (singleOn n motor v) :: Act.reset ::
                (pmpwmMotorLoop n pv motor env vs (j + 1)).trace := by
            simp [pmpwmMotorLoop, henv]
          rw [htr]
          have hcons : ∀ (tr : List Act) (st2 : List Int),
              runTrace n (Act.set (singleOn n motor v) :: Act.reset :: tr) st2
                = runTrace n tr (List.replicate n 0) := fun tr st2 => rfl
          rw [hcons]
          exact hrec.2.2 _

theorem pmpwmRunAux_results_other (h : PmpwmHyps) (seqOf : Nat → List Int)
    (env : Nat → Nat → PmpwmWaitObs) :
    ∀ (motors : List Nat) (pos : Nat) (res : List (Nat × List (Nat × Nat)))
      (fin : List Nat) (key : Nat), key ∉ motors →
      dictGet? (pmpwmRunAux h seqOf env motors pos res fin).results key
        = dictGet? res key := by
  intro motors
  induction motors with
  | nil => intro pos res fin key _; simp [pmpwmRunAux]
  | cons motor rest ih =>
    intro pos res fin key hkey
    simp only [List.mem_cons, not_or] at hkey
    by_cases hstopped : (pmpwmMotorLoop h.nMotors h.pwmValues motor (env pos)
        (seqOf pos) 0).stopped
    · simp only [pmpwmRunAux, hstopped, if_true]
      exact dictGet?_dictSet_ne motor key _ hkey.1 res
    · simp only [pmpwmRunAux, hstopped, Bool.false_eq_true, if_false]
      rw [ih (pos + 1) _ _ key hkey.2]
      exact dictGet?_dictSet_ne motor key _ hkey.1 res

/-- If the first `pre.length` motors complete and cancellation arrives
during the wait of presentation `k` of the next motor, the PM-PWM run
stops with every finished motor's full trial list retained in
`self.results`, exactly `k` trials for the interrupted motor, no end
indicator anywhere in the trace, and every motor back at zero. -/
theorem pmpwmRunAux_cancel_after (h : PmpwmHyps) (seqOf : Nat → List Int)
    (env : Nat → Nat → PmpwmWaitObs) :
    ∀ (pre : List Nat) (motor : Nat) (post : List Nat) (pos0 : Nat)
      (res : List (Nat × List (Nat × Nat))) (fin : List Nat) (k : Nat),
      pmpwmPreAnswered seqOf env pre pos0 = true →
      k < (seqOf (pos0 + pre.length)).length →
      (∀ j, j < k → pmIsAnswer (env (pos0 + pre.length) j) = true) →
      env (pos0 + pre.length) k = PmpwmWaitObs.cancelled →
      (pre ++ motor :: post).Nodup →
      (pmpwmRunAux h seqOf env (pre ++ motor :: post) pos0 res fin).stopped = true
      ∧ (∀ i, i < pre.length →
          dictGet? (pmpwmRunAux h seqOf env (pre ++ motor :: post) pos0 res
              fin).results (pre.getD i 0)
          = some (pmpwmPrefixTrials h.pwmValues (env (pos0 + i))
              (seqOf (pos0 + i)) 0 (seqOf (pos0 + i)).length))
      ∧ dictGet? (pmpwmRunAux h seqOf env (pre ++ motor :: post) pos0 res
            fin).results motor
          = some (pmpwmPrefixTrials h.pwmValues (env (pos0 + pre.length))
              (seqOf (pos0 + pre.length)) 0 k)
      ∧ Act.indicator ∉
          (pmpwmRunAux h seqOf env (pre ++ motor :: post) pos0 res fin).trace
      ∧ ∀ st : List Int,
          runTrace h.nMotors
            (pmpwmRunAux h seqOf env (pre ++ motor :: post) pos0 res fin).trace st
            = List.replicate h.nMotors 0 := by
  intro pre
  induction pre with
  | nil =>
    intro motor post pos0 res fin k _ hk hans hcan hnd
    simp only [List.length_nil, Nat.add_zero] at hk hans hcan
    have hml := pmpwmMotorLoop_cancel_at h.nMotors h.pwmValues motor (env pos0)
      (seqOf pos0) 0 k hk (by simpa using hans) (by simpa using hcan)
    have hunfold : pmpwmRunAux h seqOf env ([] ++ motor :: post) pos0 res fin
        = { trace := (pmpwmMotorLoop h.nMotors h.pwmValues motor (env pos0)
              (seqOf pos0) 0).trace,
            results := dictSet res motor
              (pmpwmMotorLoop h.nMotors h.pwmValues motor (env pos0)
                (seqOf pos0) 0).trials,
            fin := fin, stopped := true } := by
      simp [pmpwmRunAux, hml.1]
    rw [hunfold]
    refine ⟨rfl, by intro i hi; simp at hi, ?_, ?_, ?_⟩
    · rw [dictGet?_dictSet_eq, hml.2.1]
      simp
    · exact pmpwmMotorLoop_no_indicator h.nMotors h.pwmValues motor (env pos0)
        (seqOf pos0) 0
    · exact hml.2.2
  | cons m0 pre' ih =>
    intro motor post pos0 res fin k hpre hk hans hcan hnd
    have hpres : ((List.range (seqOf pos0).length).all
          (fun j => pmIsAnswer (env pos0 j))) = true
        ∧ pmpwmPreAnswered seqOf env pre' (pos0 + 1) = true := by
      simpa [pmpwmPreAnswered, Bool.and_eq_true] using hpre
    have hansall : ∀ i, i < (seqOf pos0).length → pmIsAnswer (env pos0 i) = true := by
      intro i hi
      have := List.all_eq_true.1 hpres.1 i (List.mem_range.2 hi)
      simpa using this
    have hml := pmpwmMotorLoop_complete h.nMotors h.pwmValues m0 (env pos0)
      (seqOf pos0) 0 (by simpa using hansall)
    have hlcons : (m0 :: pre').length = pre'.length + 1 := rfl
    have hshift : pos0 + (m0 :: pre').length = pos0 + 1 + pre'.length := by
      rw [hlcons]; omega
    have hk' : k < (seqOf (pos0 + 1 + pre'.length)).length := by rwa [hshift] at hk
    have hans' : ∀ j, j < k →
        pmIsAnswer (env (pos0 + 1 + pre'.length) j) = true := by
      rw [← hshift]; exact hans
    have hcan' : env (pos0 + 1 + pre'.length) k = PmpwmWaitObs.cancelled := by
      rwa [hshift] at hcan
    have hnds := List.nodup_cons.1
      (show (m0 :: (pre' ++ motor :: post)).Nodup from hnd)
    have hnd' : (pre' ++ motor :: post).Nodup := hnds.2
    have hm0rest : m0 ∉ pre' ++ motor :: post := hnds.1
    have hrec := ih motor post (pos0 + 1)
      (dictSet res m0 (pmpwmMotorLoop h.nMotors h.pwmValues m0 (env pos0)
        (seqOf pos0) 0).trials) (fin ++ [m0]) k hpres.2 hk' hans' hcan' hnd'
    have hunfold : pmpwmRunAux h seqOf env ((m0 :: pre') ++ motor :: post) pos0 res fin
        = { pmpwmRunAux h seqOf env (pre' ++ motor :: post) (pos0 + 1)
              (dictSet res m0 (pmpwmMotorLoop h.nMotors h.pwmValues m0 (env pos0)
                (seqOf pos0) 0).trials) (fin ++ [m0]) with
            trace := (pmpwmMotorLoop h.nMotors h.pwmValues m0 (env pos0)
              (seqOf pos0) 0).trace ++
              (pmpwmRunAux h seqOf env (pre' ++ motor :: post) (pos0 + 1)
                (dictSet res m0 (pmpwmMotorLoop h.nMotors h.pwmValues m0 (env pos0)
                  (seqOf pos0) 0).trials) (fin ++ [m0])).trace } := by
      simp [pmpwmRunAux, hml.1]
    rw [hunfold]
    refine ⟨hrec.1, ?_, ?_, ?_, ?_⟩
    · intro i hi
      cases i with
      | zero =>
        show dictGet? _ m0 = _
        rw [pmpwmRunAux_results_other h seqOf env _ _ _ _ m0 hm0rest,
          dictGet?_dictSet_eq, hml.2]
        simp
      | succ i =>
        have hi' : i < pre'.length := by
          rw [hlcons] at hi
          omega
        have := hrec.2.1 i hi'
        have e : pos0 + 1 + i = pos0 + (i + 1) := by omega
        rw [e] at this
        simpa using this
    · rw [← hshift] at hrec
      exact hrec.2.2.1
    · simp only [List.mem_append, not_or]
      exact ⟨pmpwmMotorLoop_no_indicator h.nMotors h.pwmValues m0 (env pos0)
        (seqOf pos0) 0, hrec.2.2.2.1⟩
    · intro st
      rw [runTrace_append]
      exact hrec.2.2.2.2 _

/-- **C2** counterexample: with the default pairs configuration, a spatial
run cancelled during the very first response wait still emits a
`finished` RunResult (here with an empty answer list) — contradicting
"a cancelled spatial-localization run emits no RunResult at all". -/
theorem spatial_cancelled_still_emits :
    (spatialRun spatialHypsDefault SpatialMode.pairs [0]
      envCancelFirstWait).exit = ExitKind.cancelled
    ∧ (spatialRun spatialHypsDefault SpatialMode.pairs [0]
      envCancelFirstWait).emitted = some ⟨[], SpatialMode.pairs⟩ := by
  decide

/-- **C2** (amended): when a run is cancelled, the threshold-finding run
emits no RunResult at all; the spatial run still emits its RunResult,
carrying exactly the already-completed trials; and the discrimination
engine emits no aggregate RunResult but retains each finished motor's
full Trials on the worker for later resumption. -/
theorem cancelled_run_partial_results
    (hM : MolsHyps) (dirs : Nat → List Bool) (envM : Nat → MolsPassObs)
    (hS : SpatialHyps) (mode : SpatialMode) (seqS : List Nat)
    (envS : Nat → SpatialStepObs) (kS : Nat)
    (hP : PmpwmHyps) (preP : List Nat) (motorP : Nat) (postP : List Nat)
    (seqOf : Nat → List Int) (envP : Nat → Nat → PmpwmWaitObs) (kP : Nat) :
    ((molsRun hM dirs envM).exit = ExitKind.cancelled →
      (molsRun hM dirs envM).emitted = none)
    ∧ (spatialUses hS mode ≠ [] → kS < seqS.length →
        (∀ i, i ≤ kS → (envS i).stopAtHead = false) →
        (∀ i, i < kS → spatialIsAnswer (envS i).wait = true) →
        (envS kS).wait = SpatialWaitObs.cancelled →
        (spatialRun hS mode seqS envS).exit = ExitKind.cancelled
        ∧ (spatialRun hS mode seqS envS).emitted
            = some ⟨spatialPrefixAnswers hS envS seqS 0 kS, mode⟩)
    ∧ (pmpwmPreAnswered seqOf envP preP 0 = true →
        kP < (seqOf preP.length).length →
        (∀ j, j < kP → pmIsAnswer (envP preP.length j) = true) →
        envP preP.length kP = PmpwmWaitObs.cancelled →
        (preP ++ motorP :: postP).Nodup →
        (pmpwmRun hP (preP ++ motorP :: postP) seqOf envP).exit
            = ExitKind.cancelled
        ∧ (pmpwmRun hP (preP ++ motorP :: postP) seqOf envP).emitted = none
        ∧ ∀ i, i < preP.length →
            dictGet? (pmpwmRun hP (preP ++ motorP :: postP) seqOf envP).results
                (preP.getD i 0)
              = some (pmpwmPrefixTrials hP.pwmValues (envP i) (seqOf i) 0
                  (seqOf i).length)) := by
  refine ⟨?_, ?_, ?_⟩
  · intro hex
    exact (molsRunAux_cancelled_iff_no_emit hM envM (molsPassList hM dirs)
      0 []).1 hex
  · intro hne hk hstops hans hcan
    have hl := spatialLoop_cancel_at hS mode envS hS.nMotors seqS 0 kS hk
      (by intro i hi; simpa using hstops i hi)
      (by intro i hi; simpa using hans i hi)
      (by simpa using hcan)
    constructor
    · simp [spatialRun, hne, hl.1]
    · simp [spatialRun, hne, hl.2.1]
  · intro hpre hk hans hcan hnd
    have hr := pmpwmRunAux_cancel_after hP seqOf envP preP motorP postP 0 [] []
      kP hpre (by simpa using hk) (by simpa using hans) (by simpa using hcan) hnd
    refine ⟨?_, ?_, ?_⟩
    · simp [pmpwmRun, hr.1]
    · simp [pmpwmRun, hr.1]
    · intro i hi
      have := hr.2.1 i hi
      simp only [Nat.zero_add] at this
      simpa [pmpwmRun, hr.1] using this

/-- Witness for `cancelled_run_partial_results`: a MOLs run whose stop
flag is observed at the first pass head emits nothing; a spatial pairs run
cancelled during its second wait emits the single completed trial; a
discrimination run with motor 0 finished and motor 2 interrupted keeps
motor 0's three trials. -/
theorem cancelled_run_partial_results_witness :
    (molsRun molsHypsDefault dirsAllDown molsEnvStopHead).emitted = none
    ∧ (spatialRun spatialHypsDefault SpatialMode.pairs [0, 2]
        spatialEnvCancelAt1).emitted
        = some ⟨[(1, 1)], SpatialMode.pairs⟩
    ∧ (pmpwmRun pmpwmHypsSmall [0, 2] pmSeqOfDefault
        pmEnvCancelMotor1At1).emitted = none
    ∧ dictGet? (pmpwmRun pmpwmHypsSmall [0, 2] pmSeqOfDefault
        pmEnvCancelMotor1At1).results 0 = some [(1, 2), (2, 2), (3, 2)] := by
  have h := cancelled_run_partial_results molsHypsDefault dirsAllDown
    molsEnvStopHead spatialHypsDefault SpatialMode.pairs [0, 2]
    spatialEnvCancelAt1 1 pmpwmHypsSmall [0] 2 [] pmSeqOfDefault
    pmEnvCancelMotor1At1 1
  have h1 := h.1 (by decide)
  have h2 := (h.2.1 (by decide) (by decide) (by decide) (by decide)
    (by decide)).2
  have h3 := h.2.2 (by decide) (by decide) (by decide) (by decide) (by decide)
  refine ⟨h1, h2.trans (by decide), ?_, ?_⟩
  · show (pmpwmRun pmpwmHypsSmall ([0] ++ 2 :: []) pmSeqOfDefault
      pmEnvCancelMotor1At1).emitted = none
    exact h3.2.1
  · show dictGet? (pmpwmRun pmpwmHypsSmall ([0] ++ 2 :: []) pmSeqOfDefault
      pmEnvCancelMotor1At1).results 0 = some [(1, 2), (2, 2), (3, 2)]
    exact (h3.2.2 0 (by decide)).trans (by decide)

/-- **C3**: For every test kind, if cancellation is requested while the
engine awaits the patient's response, no Trial is appended for the
in-flight unanswered stimulus, all motors are left at zero, and the run
terminates in the Cancelled exit — with no end-of-test indicator for the
interrupted part (MOLs fires exactly one indicator per previously
completed pass and none for the cancelled one; the spatial and
discrimination traces contain no indicator at all). -/
theorem cancellation_mid_wait_atomic
    (hM : MolsHyps) (dirs : Nat → List Bool) (envM : Nat → MolsPassObs)
    (preM : List (Nat × Bool)) (mM : Nat) (dM : Bool)
    (postM : List (Nat × Bool)) (kM : Nat)
    (hS : SpatialHyps) (mode : SpatialMode) (seqS : List Nat)
    (envS : Nat → SpatialStepObs) (kS : Nat)
    (hP : PmpwmHyps) (preP : List Nat) (motorP : Nat) (postP : List Nat)
    (seqOf : Nat → List Int) (envP : Nat → Nat → PmpwmWaitObs) (kP : Nat) :
    (molsPassList hM dirs = preM ++ (mM, dM) :: postM →
      passesCleanB hM envM preM 0 = true →
      (envM preM.length).stopAtHead = false →
      kM < (molsPassSeq hM (envM preM.length) dM).length →
      (∀ i, i ≤ kM → ((envM preM.length).obs i).stopBefore = false) →
      (∀ i, i < kM → waitIsOtherAnswer ((envM preM.length).obs i).wait
          (molsPassPositive dM) = true) →
      ((envM preM.length).obs kM).wait = WaitOutcome.cancelled →
      (molsRun hM dirs envM).exit = ExitKind.cancelled
      ∧ (molsRun hM dirs envM).emitted = none
      ∧ resultsSize (molsRun hM dirs envM).results = preM.length
      ∧ (molsRun hM dirs envM).trace.count Act.indicator = preM.length
      ∧ runTrace hM.nMotors (molsRun hM dirs envM).trace
          (List.replicate hM.nMotors 0) = List.replicate hM.nMotors 0)
    ∧ (spatialUses hS mode ≠ [] → kS < seqS.length →
        (∀ i, i ≤ kS → (envS i).stopAtHead = false) →
        (∀ i, i < kS → spatialIsAnswer (envS i).wait = true) →
        (envS kS).wait = SpatialWaitObs.cancelled →
        (spatialRun hS mode seqS envS).exit = ExitKind.cancelled
        ∧ (spatialLoop hS mode envS seqS 0).answers.length = kS
        ∧ Act.indicator ∉ (spatialRun hS mode seqS envS).trace
        ∧ runTrace hS.nMotors (spatialRun hS mode seqS envS).trace
            (List.replicate hS.nMotors 0) = List.replicate hS.nMotors 0)
    ∧ (pmpwmPreAnswered seqOf envP preP 0 = true →
        kP < (seqOf preP.length).length →
        (∀ j, j < kP → pmIsAnswer (envP preP.length j) = true) →
        envP preP.length kP = PmpwmWaitObs.cancelled →
        (preP ++ motorP :: postP).Nodup →
        (pmpwmRun hP (preP ++ motorP :: postP) seqOf envP).exit
            = ExitKind.cancelled
        ∧ dictGet? (pmpwmRun hP (preP ++ motorP :: postP) seqOf envP).results
              motorP
            = some (pmpwmPrefixTrials hP.pwmValues (envP preP.length)
                (seqOf preP.length) 0 kP)
        ∧ (pmpwmPrefixTrials hP.pwmValues (envP preP.length)
            (seqOf preP.length) 0 kP).length = kP
        ∧ Act.indicator ∉
            (pmpwmRun hP (preP ++ motorP :: postP) seqOf envP).trace
        ∧ runTrace hP.nMotors
            (pmpwmRun hP (preP ++ motorP :: postP) seqOf envP).trace
            (List.replicate hP.nMotors 0) = List.replicate hP.nMotors 0) := by
  refine ⟨?_, ?_, ?_⟩
  · intro heq hclean hstop hk hstops hothers hcan
    have hnone : (molsPass hM (envM preM.length) mM dM).2 = none :=
      probe_cancel_at hM mM (molsPassPositive dM) (envM preM.length).obs
        (molsPassSeq hM (envM preM.length) dM) 0 kM hk
        (by intro i hi; simpa using hstops i hi)
        (by intro i hi; simpa using hothers i hi)
        (by simpa using hcan)
    have h := molsRunAux_cancel_after hM envM hM.nMotors preM mM dM postM 0 []
      hclean (by simpa using hstop) (by simpa using hnone)
    rw [molsRun, heq]
    refine ⟨h.1, h.2.1, ?_, h.2.2.2.1, h.2.2.2.2⟩
    have := h.2.2.1
    simpa [resultsSize] using this
  · intro hne hk hstops hans hcan
    have hl := spatialLoop_cancel_at hS mode envS hS.nMotors seqS 0 kS hk
      (by intro i hi; simpa using hstops i hi)
      (by intro i hi; simpa using hans i hi)
      (by simpa using hcan)
    refine ⟨by simp [spatialRun, hne, hl.1], ?_, ?_, ?_⟩
    · rw [hl.2.1]
      exact spatialPrefixAnswers_length hS envS seqS 0 kS (le_of_lt hk)
    · have := spatialLoop_no_indicator hS mode envS seqS 0
      simpa [spatialRun, hne] using this
    · have := hl.2.2 (List.replicate hS.nMotors 0)
      simpa [spatialRun, hne] using this
  · intro hpre hk hans hcan hnd
    have hr := pmpwmRunAux_cancel_after hP seqOf envP preP motorP postP 0 [] []
      kP hpre (by simpa using hk) (by simpa using hans) (by simpa using hcan)
      hnd
    refine ⟨by simp [pmpwmRun, hr.1], ?_, ?_, ?_, ?_⟩
    · have := hr.2.2.1
      simpa [pmpwmRun, hr.1] using this
    · exact pmpwmPrefixTrials_length hP.pwmValues (envP preP.length)
        (seqOf preP.length) 0 kP (le_of_lt hk)
    · have := hr.2.2.2.1
      simpa [pmpwmRun, hr.1] using this
    · have := hr.2.2.2.2 (List.replicate hP.nMotors 0)
      simpa [pmpwmRun, hr.1] using this

/-- Witness for `cancellation_mid_wait_atomic`: cancellation during the
first MOLs wait records nothing, fires no indicator and exits Cancelled;
cancellation during the second spatial wait keeps exactly one trial with
an indicator-free trace; cancellation during motor 2's second
discrimination wait keeps exactly its one completed trial; all motors end
at zero in each case. -/
theorem cancellation_mid_wait_atomic_witness :
    (molsRun molsHypsDefault dirsAllDown molsEnvCancelFirstWait).exit
        = ExitKind.cancelled
    ∧ resultsSize (molsRun molsHypsDefault dirsAllDown
        molsEnvCancelFirstWait).results = 0
    ∧ (molsRun molsHypsDefault dirsAllDown
        molsEnvCancelFirstWait).trace.count Act.indicator = 0
    ∧ runTrace 10 (molsRun molsHypsDefault dirsAllDown
        molsEnvCancelFirstWait).trace (List.replicate 10 0)
        = List.replicate 10 0
    ∧ (spatialLoop spatialHypsDefault SpatialMode.pairs spatialEnvCancelAt1
        [0, 2] 0).answers.length = 1
    ∧ Act.indicator ∉ (spatialRun spatialHypsDefault SpatialMode.pairs [0, 2]
        spatialEnvCancelAt1).trace
    ∧ runTrace 10 (spatialRun spatialHypsDefault SpatialMode.pairs [0, 2]
        spatialEnvCancelAt1).trace (List.replicate 10 0)
        = List.replicate 10 0
    ∧ (pmpwmRun pmpwmHypsSmall [0, 2] pmSeqOfDefault
        pmEnvCancelMotor1At1).exit = ExitKind.cancelled
    ∧ dictGet? (pmpwmRun pmpwmHypsSmall [0, 2] pmSeqOfDefault
        pmEnvCancelMotor1At1).results 2 = some [(1, 1)]
    ∧ runTrace 10 (pmpwmRun pmpwmHypsSmall [0, 2] pmSeqOfDefault
        pmEnvCancelMotor1At1).trace (List.replicate 10 0)
        = List.replicate 10 0 := by
  have h := cancellation_mid_wait_atomic molsHypsDefault dirsAllDown
    molsEnvCancelFirstWait [] 0 true [(2, true), (4, true)] 0
    spatialHypsDefault SpatialMode.pairs [0, 2] spatialEnvCancelAt1 1
    pmpwmHypsSmall [0] 2 [] pmSeqOfDefault pmEnvCancelMotor1At1 1
  have h1 := h.1 (by decide) (by decide) (by decide) (by decide) (by decide)
    (by decide) (by decide)
  have h2 := h.2.1 (by decide) (by decide) (by decide) (by decide) (by decide)
  have h3 := h.2.2 (by decide) (by decide) (by decide) (by decide) (by decide)
  refine ⟨h1.1, h1.2.2.1, h1.2.2.2.1, h1.2.2.2.2, h2.2.1, h2.2.2.1,
    h2.2.2.2, ?_, ?_, ?_⟩
  · show (pmpwmRun pmpwmHypsSmall ([0] ++ 2 :: []) pmSeqOfDefault
      pmEnvCancelMotor1At1).exit = ExitKind.cancelled
    exact h3.1
  · show dictGet? (pmpwmRun pmpwmHypsSmall ([0] ++ 2 :: []) pmSeqOfDefault
      pmEnvCancelMotor1At1).results 2 = some [(1, 1)]
    exact h3.2.1.trans (by decide)
  · show runTrace 10 (pmpwmRun pmpwmHypsSmall ([0] ++ 2 :: []) pmSeqOfDefault
      pmEnvCancelMotor1At1).trace (List.replicate 10 0) = List.replicate 10 0
    exact h3.2.2.2.2

end Vibro
